import Mathlib

/-!
Verification of the Mind-Mapper graph tool.

Shallow embedding of the core modules (`Parser.js`, `GraphModel.js`,
`layoutUtils.js`, `AdvancedLayout.js`, `GraphVisualization.js`,
`fileUtils.js` / `App.js`) as executable Lean definitions, followed by
theorems settling the frozen specification claims.

JavaScript numbers are modelled as rationals (`ℚ`), JS strings as Lean
`String`, JS arrays and `Set` objects as lists (with insertion-order
preserving, membership-checked insertion for sets).
-/

namespace MindMap

/-! ## String utilities (JS `trim` and `split('\n')`) -/

/-- Whitespace characters relevant to JS `String.prototype.trim`. -/
def isWS (c : Char) : Bool :=
  c = ' ' || c = '\t' || c = '\n' || c = '\r'

/-- JS `trim` on a character list: drop leading and trailing whitespace. -/
def trimChars (l : List Char) : List Char :=
  ((l.dropWhile isWS).reverse.dropWhile isWS).reverse

/-- JS `s.trim()`. -/
def jsTrim (s : String) : String :=
  ⟨trimChars s.data⟩

/-- JS `s.split('\n')`: split at each newline, keeping empty pieces. -/
def splitNl : List Char → List (List Char)
  | [] => [[]]
  | c :: rest =>
    if c = '\n' then [] :: splitNl rest
    else
      match splitNl rest with
      | [] => [[c]]
      | h :: t => (c :: h) :: t

/-- Insert into a JS `Set` modelled as a list: append if absent. -/
def insertIfAbsent (l : List String) (x : String) : List String :=
  if x ∈ l then l else l ++ [x]

/-! ## Parser (`src/modules/Parser.js`)

The line regex is `/\{([^{}]+)\}\(([0-9]{1,2})\)\{([^{}]+)\}/`:
a braced non-empty brace-free group, a parenthesised 1–2 digit group,
and a second braced group, searched at the leftmost position of the line.
-/

def notBrace (c : Char) : Bool :=
  c ≠ '{' && c ≠ '}'

def isDigitCh (c : Char) : Bool :=
  '0' ≤ c && c ≤ '9'

def digitVal (c : Char) : ℕ :=
  c.toNat - '0'.toNat

/-- Match `\{([^{}]+)\}` at the head of the input; return the group and rest. -/
def matchBraced : List Char → Option (List Char × List Char)
  | '{' :: r =>
    let nm := r.takeWhile notBrace
    if nm.isEmpty then none
    else
      match r.dropWhile notBrace with
      | '}' :: rest => some (nm, rest)
      | _ => none
  | _ => none

/-- Match `\(([0-9]{1,2})\)` at the head of the input (greedy two digits,
backtracking to one), returning `parseInt` of the digit group. -/
def matchParenWeight : List Char → Option (ℕ × List Char)
  | '(' :: a :: b :: rest =>
    if isDigitCh a && isDigitCh b then
      match rest with
      | ')' :: r2 => some (10 * digitVal a + digitVal b, r2)
      | _ => none
    else if isDigitCh a && b = ')' then some (digitVal a, rest)
    else none
  | _ => none

/-- Attempt the full pattern at the head of the input. -/
def matchAt (l : List Char) : Option (List Char × ℕ × List Char) :=
  match matchBraced l with
  | none => none
  | some (n1, r1) =>
    match matchParenWeight r1 with
    | none => none
    | some (w, r2) =>
      match matchBraced r2 with
      | none => none
      | some (n2, _) => some (n1, w, n2)

/-- JS `line.match(regex)`: try the pattern at each start offset,
leftmost success wins. -/
def findMatch : List Char → Option (List Char × ℕ × List Char)
  | [] => none
  | c :: rest =>
    match matchAt (c :: rest) with
    | some m => some m
    | none => findMatch rest

/-- A parsed edge record `{ from, to, weight }`. -/
structure PEdge where
  fromN : String
  toN : String
  weight : ℕ
  deriving DecidableEq, Repr

/-- Parsed data `{ nodes, edges }`; nodes is the `Set` in insertion order. -/
structure ParsedData where
  nodes : List String
  edges : List PEdge
  deriving DecidableEq, Repr

/-- Process one line of input, as the `forEach` body in `parseText`. -/
def parseLine (acc : ParsedData) (line : List Char) : ParsedData :=
  if (trimChars line).isEmpty then acc
  else
    match findMatch line with
    | some (n1, w, n2) =>
      let nodeA : String := ⟨trimChars n1⟩
      let nodeB : String := ⟨trimChars n2⟩
      { nodes := insertIfAbsent (insertIfAbsent acc.nodes nodeA) nodeB
        edges := acc.edges ++ [⟨nodeA, nodeB, w⟩] }
    | none => acc

/-- `parseText` from `Parser.js`: trim the input, split into lines, and fold
the line parser over them. -/
def parseText (text : String) : ParsedData :=
  (splitNl (trimChars text.data)).foldl parseLine ⟨[], []⟩

/-! ## GraphModel (`src/modules/GraphModel.js`) -/

/-- An edge record `{ from, to, weight }` of the graph model. -/
structure GEdge where
  fromN : String
  toN : String
  weight : ℕ
  deriving DecidableEq, Repr

/-- The graph `{ nodes, edges }` of `GraphModel.js` (node records carry
only their id string). -/
structure Graph where
  nodes : List String
  edges : List GEdge
  deriving DecidableEq, Repr

/-- `getConnectedNodes(graph, nodeId)`: scan all edges; when `edge.from`
matches, add `edge.to` to the set; when `edge.to` matches, add `edge.from`.
The JS `Set` is modelled as an insertion-ordered duplicate-free list. -/
def getConnectedNodes (g : Graph) (nodeId : String) : List String :=
  g.edges.foldl
    (fun acc e =>
      let acc1 := if e.fromN = nodeId then insertIfAbsent acc e.toN else acc
      if e.toN = nodeId then insertIfAbsent acc1 e.fromN else acc1)
    []

/-! ## The rendered graph (Cytoscape elements)

`toCytoscapeFormat` turns parsed data into node elements (ids) and edge
elements `{ source, target, weight }`; edges are identified below by their
position in the edge list.  Weights are rationals since loaded JSON may
carry arbitrary numbers. -/

structure VEdge where
  src : String
  tgt : String
  weight : ℚ
  deriving DecidableEq, Repr

structure VizGraph where
  nodes : List String
  edges : List VEdge
  deriving DecidableEq, Repr

/-- An edge is incident to node `v` when `v` is its source or target. -/
def incident (v : String) (e : VEdge) : Bool :=
  e.src = v || e.tgt = v

/-! ## Normalizer (`getNormalizedWeights` in `layoutUtils.js`, with an
identical copy in `AdvancedLayout.js`)

The JS code folds `Math.min` / `Math.max` starting from `±Infinity`; on a
non-empty collection this computes the list minimum / maximum, as the
folds below do. -/

def minList : List ℚ → ℚ
  | [] => 0
  | x :: xs => xs.foldl min x

def maxList : List ℚ → ℚ
  | [] => 0
  | x :: xs => xs.foldl max x

/-- `getNormalizedWeights(scores)`: min-max rescale each `compositeScore`
to [0,1]; when the range is not positive every entry gets 0.5.  The input
is the map node id ↦ compositeScore (the only field the function reads). -/
def getNormalizedWeights (scores : List (String × ℚ)) : List (String × ℚ) :=
  let vals := scores.map Prod.snd
  let minScore := minList vals
  let maxScore := maxList vals
  let scoreRange := maxScore - minScore
  scores.map
    (fun p => (p.1, if 0 < scoreRange then (p.2 - minScore) / scoreRange else 1 / 2))

/-! ## Importance scoring (`calculateEnhancedImportance` in
`AdvancedLayout.js`)

The betweenness-centrality values come from the external engine (or 0 when
the capability throws); they are supplied as a function parameter `bw`. -/

def connectedEdgesOf (g : VizGraph) (v : String) : List VEdge :=
  g.edges.filter (incident v)

def degreeOf (g : VizGraph) (v : String) : ℕ :=
  (connectedEdgesOf g v).length

def totalWeightOf (g : VizGraph) (v : String) : ℚ :=
  ((connectedEdgesOf g v).map VEdge.weight).sum

def avgWeightOf (g : VizGraph) (v : String) : ℚ :=
  if 0 < degreeOf g v then totalWeightOf g v / (degreeOf g v : ℚ) else 0

/-- `compositeScore = degree * (avgWeight || 1)` plus the betweenness
contribution `betweenness * 5` added afterwards by the same function. -/
def compositeScoreOf (g : VizGraph) (bw : String → ℚ) (v : String) : ℚ :=
  (degreeOf g v : ℚ) * (if avgWeightOf g v = 0 then 1 else avgWeightOf g v) + bw v * 5

/-- Per-node importance record as built by `calculateEnhancedImportance`. -/
structure ImpScore where
  degree : ℕ
  totalWeight : ℚ
  avgWeight : ℚ
  compositeScore : ℚ
  normalized : ℚ
  deriving DecidableEq, Repr

/-- `calculateEnhancedImportance(cy)`: per-node metrics, betweenness folded
into the composite score, then normalized scores attached. -/
def calculateEnhancedImportance (g : VizGraph) (bw : String → ℚ) :
    List (String × ImpScore) :=
  let base := g.nodes.map (fun v =>
    (v, ({ degree := degreeOf g v
           totalWeight := totalWeightOf g v
           avgWeight := avgWeightOf g v
           compositeScore := compositeScoreOf g bw v
           normalized := 0 } : ImpScore)))
  let norm := getNormalizedWeights (base.map (fun p => (p.1, p.2.compositeScore)))
  base.map (fun p => (p.1, { p.2 with normalized := (norm.lookup p.1).getD 0 }))

/-! ## Layout planner (`createOptimizedLayout` in `AdvancedLayout.js`) -/

/-- `nodeImportance[id]?.compositeScore || 1`: the composite score of the
node, with 1 substituted when the record is absent or the score is 0. -/
def scoreOr1 (scores : List (String × ImpScore)) (v : String) : ℚ :=
  match scores.lookup v with
  | some r => if r.compositeScore = 0 then 1 else r.compositeScore
  | none => 1

/-- The `idealEdgeLength` callback of the optimized layout. -/
def idealEdgeLength (scores : List (String × ImpScore)) (e : VEdge) : ℚ :=
  let sourceImportance := scoreOr1 scores e.src
  let targetImportance := scoreOr1 scores e.tgt
  let baseLength : ℚ := 200
  let weightFactor := e.weight / 20
  let importanceFactor := max sourceImportance targetImportance / 25
  max 50 (baseLength - weightFactor * 70 - importanceFactor * 50)

/-- Modelled from the spec's words, for comparison with `idealEdgeLength`:
`max(50, 200 − (weight/20)*70 − (max(normalized(src), normalized(tgt))/25)*50)`
where `normalized` is the min-max normalized importance of the endpoint. -/
def idealEdgeLengthSpec (scores : List (String × ImpScore)) (e : VEdge) : ℚ :=
  let ns := ((scores.lookup e.src).map ImpScore.normalized).getD 0
  let nt := ((scores.lookup e.tgt).map ImpScore.normalized).getD 0
  max 50 (200 - e.weight / 20 * 70 - max ns nt / 25 * 50)

/-! ## Tier assignment (`determineNodeTiers` in `AdvancedLayout.js`)

The code sorts the keys of the importance map by descending
`compositeScore` (JS `Array.prototype.sort` is stable) and assigns a tier
from the rank percentile `index / count`.  The input is the map
node id ↦ compositeScore (the only field the function reads); the stable
descending sort is modelled by `List.insertionSort`, which inserts each
earlier element before the later elements it ties with. -/

def tierOf (i n : ℕ) : ℕ :=
  let percentile : ℚ := (i : ℚ) / (n : ℚ)
  if percentile < 1 / 10 then 0
  else if percentile < 3 / 10 then 1
  else if percentile < 6 / 10 then 2
  else 3

/-- Descending comparison on composite scores, `(a,b) => score[b] - score[a]`. -/
def scoreDesc (p q : String × ℚ) : Prop :=
  q.2 ≤ p.2

instance : DecidableRel scoreDesc :=
  fun p q => inferInstanceAs (Decidable (q.2 ≤ p.2))

def determineNodeTiers (scores : List (String × ℚ)) : List (String × ℕ) :=
  let sortedNodes := List.insertionSort scoreDesc scores
  sortedNodes.enum.map (fun ip => (ip.2.1, tierOf ip.1 scores.length))

/-! ## Crossing penalties (`calculateCrossingPenalties` in
`AdvancedLayout.js`) -/

/-- `nodeConnections[v]`: for each edge in order, the source's list gains
the target and the target's list gains the source (so parallel edges and
self-loops contribute duplicates). -/
def connList (g : VizGraph) (v : String) : List String :=
  g.edges.foldl
    (fun acc e =>
      (acc ++ (if e.src = v then [e.tgt] else [])) ++
        (if e.tgt = v then [e.src] else []))
    []

/-- `shared`: entries of A's connection list that also occur in B's. -/
def sharedCount (g : VizGraph) (A B : String) : ℕ :=
  ((connList g A).filter (fun c => decide (c ∈ connList g B))).length

/-- `potentialCrossings`: pairs of list entries `(a, b)` with `a` from A's
list (skipping B), `b` from B's list (skipping A), and `a ≠ b`. -/
def potentialCrossings (g : VizGraph) (A B : String) : ℕ :=
  (((connList g A).filter (fun a => decide (a ≠ B))).map
    (fun a => (connList g B).countP (fun b => decide (b ≠ A) && decide (b ≠ a)))).sum

/-- `penalty = potentialCrossings - shared * 2`. -/
def rawPenalty (g : VizGraph) (A B : String) : ℤ :=
  (potentialCrossings g A B : ℤ) - 2 * (sharedCount g A B : ℤ)

/-- The ordered pairs `(nodes[i], nodes[j])` with `i < j`, in loop order. -/
def pairsLT : List String → List (String × String)
  | [] => []
  | x :: xs => (xs.map (fun y => (x, y))) ++ pairsLT xs

/-- The penalties map: for each `i < j` pair the value is stored under both
key orders (`penalties[A][B] = penalties[B][A] = penalty`). -/
def penaltyTable (g : VizGraph) : List ((String × String) × ℤ) :=
  (pairsLT g.nodes).foldl
    (fun acc p =>
      acc ++ [((p.1, p.2), rawPenalty g p.1 p.2), ((p.2, p.1), rawPenalty g p.1 p.2)])
    []

/-- Reading `penalties[A][B]` from the stored map. -/
def penaltyLookup (g : VizGraph) (A B : String) : Option ℤ :=
  (penaltyTable g).lookup (A, B)

/-- Modelled from the spec's words, for comparison with `rawPenalty`:
`shared` as the count of distinct ids adjacent to both A and B, and
`potentialCrossings` over distinct ids `a ∈ neighbors(A)\x7bB\x7d`,
`b ∈ neighbors(B)\x7bA\x7d` with `a ≠ b`. -/
def penaltySpec (g : VizGraph) (A B : String) : ℤ :=
  let nbrsA := (connList g A).dedup
  let nbrsB := (connList g B).dedup
  let shared := (nbrsA.filter (fun c => decide (c ∈ nbrsB))).length
  let pc := ((nbrsA.filter (fun a => decide (a ≠ B))).map
    (fun a => nbrsB.countP (fun b => decide (b ≠ A) && decide (b ≠ a)))).sum
  (pc : ℤ) - 2 * (shared : ℤ)

/-! ## Highlight propagation (`GraphVisualization.js`, selection effect)

The four style classes `selected`, `connected-1`, `connected-2`,
`connected-3` are the tags `selected`, `d1`, `d2`, `d3`.  Element classes
are accumulated lists with idempotent insertion (`addClass`); edges are
identified by their index in the edge list; the `processedNodes` set and
the per-hop node sets are insertion-ordered lists. -/

inductive Tag where
  | selected
  | d1
  | d2
  | d3
  deriving DecidableEq, Repr

/-- Cytoscape `addClass`: a no-op when the class is already present. -/
def addClass (t : Tag) (l : List Tag) : List Tag :=
  if t ∈ l then l else l ++ [t]

/-- The highlight state: classes of every node and edge, plus the
`processedNodes` set. -/
structure HSt where
  nTag : String → List Tag
  eTag : ℕ → List Tag
  processed : List String

/-- All classes cleared (the `removeClass` reset). -/
def initHSt : HSt :=
  ⟨fun _ => [], fun _ => [], []⟩

def addTagN (v : String) (t : Tag) (s : HSt) : HSt :=
  { s with nTag := fun x => if x = v then addClass t (s.nTag x) else s.nTag x }

def addTagE (i : ℕ) (t : Tag) (s : HSt) : HSt :=
  { s with eTag := fun j => if j = i then addClass t (s.eTag j) else s.eTag j }

def addProc (v : String) (s : HSt) : HSt :=
  { s with processed := insertIfAbsent s.processed v }

/-- Cytoscape `edge.connectedNodes()`: the edge's endpoints, deduplicated
for a self-loop. -/
def endpointsNE (e : VEdge) : List String :=
  if e.tgt = e.src then [e.src] else [e.src, e.tgt]

def enumEdges (g : VizGraph) : List (ℕ × VEdge) :=
  g.edges.enum

/-- Tag each node of `ns` with `t`, add it to `processed` and to the
collected per-hop set (the hop-1 and hop-2 inner node loops). -/
def tagHop (t : Tag) : List String → HSt → List String → HSt × List String
  | [], s, coll => (s, coll)
  | n :: ns, s, coll =>
    tagHop t ns (addProc n (addTagN n t s)) (insertIfAbsent coll n)

/-- Hop 1: each edge incident to the selection is tagged `d1`; its
endpoints other than the selection are tagged `d1` and collected. -/
def hop1 (sel : String) : List (ℕ × VEdge) → HSt → List String → HSt × List String
  | [], s, fd => (s, fd)
  | ie :: rest, s, fd =>
    let s1 := addTagE ie.1 .d1 s
    let others := (endpointsNE ie.2).filter (fun n => decide (n ≠ sel))
    let r := tagHop .d1 others s1 fd
    hop1 sel rest r.1 r.2

/-- Hop 2, inner edge loop: tag the edge `d2`, then tag and collect its
endpoints not yet processed. -/
def hop2Edges : List (ℕ × VEdge) → HSt → List String → HSt × List String
  | [], s, sd => (s, sd)
  | ie :: rest, s, sd =>
    let s1 := addTagE ie.1 .d2 s
    let ns := (endpointsNE ie.2).filter (fun n => decide (n ∉ s1.processed))
    let r := tagHop .d2 ns s1 sd
    hop2Edges rest r.1 r.2

/-- The edges considered for hop 2 from node `nid`: incident edges that do
not already carry `connected-1` or `selected`. -/
def edgesFor2 (g : VizGraph) (s : HSt) (nid : String) : List (ℕ × VEdge) :=
  (enumEdges g).filter (fun ie =>
    incident nid ie.2 && decide (Tag.d1 ∉ s.eTag ie.1) &&
      decide (Tag.selected ∉ s.eTag ie.1))

/-- Hop 2, outer loop over the first-degree nodes. -/
def hop2Nodes (g : VizGraph) : List String → HSt → List String → HSt × List String
  | [], s, sd => (s, sd)
  | nid :: rest, s, sd =>
    let r := hop2Edges (edgesFor2 g s nid) s sd
    hop2Nodes g rest r.1 r.2

/-- Hop 3, inner node loop (no per-hop set is collected at hop 3). -/
def tagTD : List String → HSt → HSt
  | [], s => s
  | n :: ns, s => tagTD ns (addProc n (addTagN n .d3 s))

/-- Hop 3, inner edge loop. -/
def hop3Edges : List (ℕ × VEdge) → HSt → HSt
  | [], s => s
  | ie :: rest, s =>
    let s1 := addTagE ie.1 .d3 s
    let ns := (endpointsNE ie.2).filter (fun n => decide (n ∉ s1.processed))
    hop3Edges rest (tagTD ns s1)

/-- The edges considered for hop 3 from node `nid`: incident edges without
`connected-1`, `connected-2` or `selected`. -/
def edgesFor3 (g : VizGraph) (s : HSt) (nid : String) : List (ℕ × VEdge) :=
  (enumEdges g).filter (fun ie =>
    incident nid ie.2 && decide (Tag.d1 ∉ s.eTag ie.1) &&
      decide (Tag.d2 ∉ s.eTag ie.1) && decide (Tag.selected ∉ s.eTag ie.1))

/-- Hop 3, outer loop over the second-degree nodes. -/
def hop3Nodes (g : VizGraph) : List String → HSt → HSt
  | [], s => s
  | nid :: rest, s => hop3Nodes g rest (hop3Edges (edgesFor3 g s nid) s)

/-- The whole selection effect body for a non-null selection: clear all
classes, tag the selection, then the three unrolled hops. -/
def highlightRun (g : VizGraph) (sel : String) : HSt :=
  let s0 := addProc sel (addTagN sel .selected initHSt)
  let p1 := hop1 sel ((enumEdges g).filter (fun ie => incident sel ie.2)) s0 []
  let p2 := hop2Nodes g p1.2 p1.1 []
  hop3Nodes g p2.2 p2.1

/-- One transition of the highlight state machine, as the selection
`useEffect` implements it: a node tap recomputes all tags from scratch; a
null selection (background tap / clear) leaves the effect body unexecuted,
so the previous classes persist. -/
def selectionEffect (g : VizGraph) (cur : HSt) (sel : Option String) : HSt :=
  match sel with
  | some n => highlightRun g n
  | none => cur

/-- Adjacency in the rendered graph: some edge joins `u` and `v`. -/
def AdjV (g : VizGraph) (u v : String) : Prop :=
  ∃ e ∈ g.edges, (e.src = u ∧ e.tgt = v) ∨ (e.tgt = u ∧ e.src = v)

/-- `ReachLe g sel k v`: `v` lies within hop distance `k` of `sel`. -/
inductive ReachLe (g : VizGraph) (sel : String) : ℕ → String → Prop where
  | refl (k : ℕ) : ReachLe g sel k sel
  | step {k : ℕ} {u v : String} :
      ReachLe g sel k u → AdjV g u v → ReachLe g sel (k + 1) v

/-! ## Persistence (`fileUtils.js` and `handleLoad` in `App.js`)

A JSON value; the (external) `JSON.parse` is modelled by its result:
`none` for unparseable text, `some v` for a parsed value. -/

inductive JValue where
  | jnull : JValue
  | jbool : Bool → JValue
  | jnum : ℚ → JValue
  | jstr : String → JValue
  | jarr : List JValue → JValue
  | jobj : List (String × JValue) → JValue

/-- `loadFromJsonFile`: rejects with "Invalid JSON file" when parsing
fails, otherwise resolves the parsed value — with no schema check. -/
def loadFromJsonFile : Option JValue → Except String JValue
  | none => .error "Invalid JSON file"
  | some v => .ok v

/-- JSON `null` — the only JSON value whose property access throws. -/
def isNullVal : JValue → Bool
  | .jnull => true
  | _ => false

/-- Whether `toCytoscapeFormat(v)` throws: it calls `v.nodes.forEach` and
`v.edges.forEach` (throwing when `v` is not an object carrying
array-valued `nodes` and `edges` fields) and dereferences each entry
(`node.id`, `edge.from`, …), which throws exactly on a `null` entry —
property access on any other JSON value yields `undefined` without
throwing. -/
def toCytoThrows : JValue → Bool
  | .jobj fs =>
    match fs.lookup "nodes", fs.lookup "edges" with
    | some (.jarr ns), some (.jarr es) => ns.any isNullVal || es.any isNullVal
    | _, _ => true
  | _ => true

/-- Modelled from the spec's words, for comparison: the persisted-file
schema `\x7b nodes: [\x7bid\x7d], edges: [\x7bfrom,to,weight\x7d] \x7d`
with string ids and endpoints and integer weights. -/
def isStrVal : Option JValue → Bool
  | some (.jstr _) => true
  | _ => false

def isIntVal : Option JValue → Bool
  | some (.jnum q) => q.den = 1
  | _ => false

def isNodeRec : JValue → Bool
  | .jobj fs => isStrVal (fs.lookup "id")
  | _ => false

def isEdgeRec : JValue → Bool
  | .jobj fs =>
    isStrVal (fs.lookup "from") && isStrVal (fs.lookup "to") &&
      isIntVal (fs.lookup "weight")
  | _ => false

def matchesSchema : JValue → Bool
  | .jobj fs =>
    (match fs.lookup "nodes" with
     | some (.jarr ns) => ns.all isNodeRec
     | _ => false) &&
    (match fs.lookup "edges" with
     | some (.jarr es) => es.all isEdgeRec
     | _ => false)
  | _ => false

/-- The in-memory state relevant to loading: the `graphData` React state. -/
structure AppState where
  graphData : JValue

/-! ## Auxiliary predicates and sample inputs used by the theorems -/

/-- A parsed record whose node ids and edge endpoints are all fixed by
`jsTrim`. -/
def AllTrimmed (pd : ParsedData) : Prop :=
  (∀ n ∈ pd.nodes, jsTrim n = n) ∧
    (∀ e ∈ pd.edges, jsTrim e.fromN = e.fromN ∧ jsTrim e.toN = e.toN)

/-- A 100-node score map with pairwise distinct ids. -/
def tierSample : List (String × ℚ) :=
  (List.range 100).map (fun i => (String.mk [Char.ofNat (65 + i)], (i : ℚ)))

/-- The path graph `a–b–c–d–e` with four equal-weight edges. -/
def pathSample : VizGraph :=
  ⟨["a", "b", "c", "d", "e"],
   [⟨"a", "b", 1⟩, ⟨"b", "c", 1⟩, ⟨"c", "d", 1⟩, ⟨"d", "e", 1⟩]⟩

/-- Nodes `a, b, x` with parallel edges `a–x`, `a–x` and an edge `b–x`. -/
def parallelSample : VizGraph :=
  ⟨["a", "b", "x"], [⟨"a", "x", 1⟩, ⟨"a", "x", 1⟩, ⟨"b", "x", 1⟩]⟩

/-- Every tagged node has been recorded in `processedNodes`. -/
def TaggedProc (s : HSt) : Prop :=
  ∀ v, s.nTag v ≠ [] → v ∈ s.processed

/-- State shape maintained throughout hop 1: the selection carries exactly
`selected`, every other node carries nothing or exactly `d1`, every edge
carries nothing or exactly `d1`. -/
def Inv1 (sel : String) (s : HSt) : Prop :=
  s.nTag sel = [Tag.selected] ∧
    (∀ v, v ≠ sel → s.nTag v = [] ∨ s.nTag v = [Tag.d1]) ∧
    (∀ i, s.eTag i = [] ∨ s.eTag i = [Tag.d1]) ∧
    TaggedProc s

/-- State shape maintained throughout hop 2. -/
def Inv2 (s : HSt) : Prop :=
  (∀ v, s.nTag v = [] ∨ s.nTag v = [Tag.selected] ∨ s.nTag v = [Tag.d1] ∨
      s.nTag v = [Tag.d2]) ∧
    (∀ i, s.eTag i = [] ∨ s.eTag i = [Tag.d1] ∨ s.eTag i = [Tag.d2]) ∧
    TaggedProc s

/-- State shape maintained throughout hop 3. -/
def Inv3 (s : HSt) : Prop :=
  (∀ v, s.nTag v = [] ∨ s.nTag v = [Tag.selected] ∨ s.nTag v = [Tag.d1] ∨
      s.nTag v = [Tag.d2] ∨ s.nTag v = [Tag.d3]) ∧
    (∀ i, s.eTag i = [] ∨ s.eTag i = [Tag.d1] ∨ s.eTag i = [Tag.d2] ∨
      s.eTag i = [Tag.d3]) ∧
    TaggedProc s

/-- `handleLoad`'s `onchange` handler: `none` = no file chosen; `some none`
= file read but `JSON.parse` failed (promise rejected, alert shown, state
untouched); `some (some v)` = parsed value `v`: `setGraphData(v)` runs
first, then `toCytoscapeFormat(v)` is evaluated — if it throws, the catch
alerts, but the graph state was already replaced.  The boolean reports
whether the error alert was shown. -/
def handleLoad (st : AppState) (file : Option (Option JValue)) : AppState × Bool :=
  match file with
  | none => (st, false)
  | some none => (st, true)
  | some (some v) =>
    if toCytoThrows v then (⟨v⟩, true) else (⟨v⟩, false)

/-! ## General helper lemmas -/

theorem foldl_pres {α β : Type _} (f : β → α → β) (P : β → Prop)
    (h : ∀ b a, P b → P (f b a)) : ∀ (l : List α) (b : β), P b → P (l.foldl f b)
  | [], _, hb => hb
  | a :: l, b, hb => foldl_pres f P h l (f b a) (h b a hb)

theorem mem_insertIfAbsent {l : List String} {x y : String} :
    y ∈ insertIfAbsent l x ↔ y ∈ l ∨ y = x := by
  unfold insertIfAbsent
  split <;> rename_i h
  · constructor
    · exact fun hy => Or.inl hy
    · rintro (hy | rfl) <;> assumption
  · simp

theorem nodup_insertIfAbsent {l : List String} {x : String} (h : l.Nodup) :
    (insertIfAbsent l x).Nodup := by
  unfold insertIfAbsent
  split <;> rename_i hx
  · exact h
  · exact List.nodup_append.mpr ⟨h, List.nodup_singleton x, by simpa using hx⟩

theorem self_mem_insertIfAbsent {l : List String} {x : String} :
    x ∈ insertIfAbsent l x := by
  rw [mem_insertIfAbsent]; exact Or.inr rfl

theorem sub_insertIfAbsent {l : List String} {x y : String} (h : y ∈ l) :
    y ∈ insertIfAbsent l x := by
  rw [mem_insertIfAbsent]; exact Or.inl h

/-! ## Trimming lemmas (for C10) -/

theorem dropWhile_length_le' (p : Char → Bool) :
    ∀ l : List Char, (l.dropWhile p).length ≤ l.length
  | [] => le_refl _
  | c :: t => by
    rw [List.dropWhile_cons]
    split
    · exact le_trans (dropWhile_length_le' p t) (Nat.le_succ _)
    · exact le_refl _

theorem dropWhile_rtrim_fix (p : Char → Bool) (l : List Char)
    (hfix : l.dropWhile p = l) :
    ((l.reverse.dropWhile p).reverse).dropWhile p = (l.reverse.dropWhile p).reverse := by
  rcases hrev : (l.reverse.dropWhile p).reverse with _ | ⟨c, t⟩
  · simp
  · obtain ⟨t0, ht0⟩ := List.dropWhile_suffix (l := l.reverse) p
    have hl : l = c :: (t ++ t0.reverse) := by
      have h := congrArg List.reverse ht0
      rw [List.reverse_append, List.reverse_reverse] at h
      rw [hrev] at h
      simpa using h.symm
    have hpc : p c = false := by
      by_contra hpc
      rw [Bool.not_eq_false] at hpc
      rw [hl, List.dropWhile_cons, if_pos hpc] at hfix
      have hlen := congrArg List.length hfix
      have hle := dropWhile_length_le' p (t ++ t0.reverse)
      simp only [List.length_cons] at hlen
      omega
    rw [List.dropWhile_cons, if_neg (by simp [hpc])]

theorem trimChars_dropWhile (l : List Char) :
    (trimChars l).dropWhile isWS = trimChars l :=
  dropWhile_rtrim_fix isWS (l.dropWhile isWS) (List.dropWhile_idempotent isWS l)

theorem trimChars_idem (l : List Char) :
    trimChars (trimChars l) = trimChars l := by
  have h1 : trimChars (trimChars l) =
      (((trimChars l).dropWhile isWS).reverse.dropWhile isWS).reverse := rfl
  rw [h1, trimChars_dropWhile]
  have h2 : (trimChars l).reverse = (l.dropWhile isWS).reverse.dropWhile isWS :=
    List.reverse_reverse _
  rw [h2, List.dropWhile_idempotent]
  exact rfl

theorem jsTrim_trimChars (l : List Char) :
    jsTrim ⟨trimChars l⟩ = ⟨trimChars l⟩ := by
  unfold jsTrim
  simp only [trimChars_idem]

/-! ## Parser theorems (C3, C10) -/

theorem parseLine_allTrimmed (acc : ParsedData) (line : List Char)
    (h : AllTrimmed acc) : AllTrimmed (parseLine acc line) := by
  unfold parseLine
  split
  · exact h
  · rcases hm : findMatch line with _ | ⟨n1, w, n2⟩
    · simpa [hm] using h
    · simp only [hm]
      obtain ⟨hn, he⟩ := h
      refine ⟨?_, ?_⟩
      · intro n hmem
        rcases mem_insertIfAbsent.mp hmem with hmem1 | rfl
        · rcases mem_insertIfAbsent.mp hmem1 with hmem2 | rfl
          · exact hn n hmem2
          · exact jsTrim_trimChars n1
        · exact jsTrim_trimChars n2
      · intro e hmem
        rcases List.mem_append.mp hmem with hmem1 | hmem2
        · exact he e hmem1
        · have : e = ⟨⟨trimChars n1⟩, ⟨trimChars n2⟩, w⟩ := by simpa using hmem2
          subst this
          exact ⟨jsTrim_trimChars n1, jsTrim_trimChars n2⟩

/-- Claim C10: the parser trims leading and trailing whitespace from both
concept names before creating nodes and edges: every produced node id and
edge endpoint is a `trim` fixpoint, and the two lines `{ A }(05){B}` and
`{A}(05){B}` produce the single node id "A" (with "B"), not distinct ids. -/
theorem C10_parser_trims_names :
    (∀ text : String,
      (∀ n ∈ (parseText text).nodes, jsTrim n = n) ∧
        (∀ e ∈ (parseText text).edges, jsTrim e.fromN = e.fromN ∧ jsTrim e.toN = e.toN)) ∧
    parseText "\x7b A \x7d(05)\x7bB\x7d\n\x7bA\x7d(05)\x7bB\x7d" =
      ⟨["A", "B"], [⟨"A", "B", 5⟩, ⟨"A", "B", 5⟩]⟩ := by
  constructor
  · intro text
    exact foldl_pres parseLine AllTrimmed parseLine_allTrimmed
      (splitNl (trimChars text.data)) ⟨[], []⟩ ⟨by simp, by simp⟩
  · decide

/-- Witness for C10 at a concrete input. -/
theorem C10_witness : jsTrim "A" = "A" :=
  (C10_parser_trims_names.1 "\x7bA\x7d(07)\x7bB\x7d").1 "A" (by decide)

/-- Claim C3 (code evaluation at the failing input): the line `{A}(00){B}`
matches the parser regex `([0-9]{1,2})` and produces an edge of weight 0,
outside the documented weight range [1,99]. -/
theorem C3_weight_zero_eval :
    parseText "\x7bA\x7d(00)\x7bB\x7d" = ⟨["A", "B"], [⟨"A", "B", 0⟩]⟩ := by
  decide

/-! ## GraphModel theorems (C5) -/

/-- The per-edge step of `getConnectedNodes`. -/
theorem gcn_step_mem (n : String) (acc : List String) (e : GEdge) (x : String) :
    (x ∈
      (let acc1 := if e.fromN = n then insertIfAbsent acc e.toN else acc
       if e.toN = n then insertIfAbsent acc1 e.fromN else acc1)) ↔
      x ∈ acc ∨ (e.fromN = n ∧ e.toN = x) ∨ (e.toN = n ∧ e.fromN = x) := by
  by_cases h1 : e.fromN = n <;> by_cases h2 : e.toN = n <;>
    simp [h1, h2, mem_insertIfAbsent] <;> tauto

theorem gcn_aux (n : String) :
    ∀ (es : List GEdge) (acc : List String), acc.Nodup →
      (es.foldl
        (fun acc e =>
          let acc1 := if e.fromN = n then insertIfAbsent acc e.toN else acc
          if e.toN = n then insertIfAbsent acc1 e.fromN else acc1)
        acc).Nodup ∧
      (∀ x, x ∈ es.foldl
          (fun acc e =>
            let acc1 := if e.fromN = n then insertIfAbsent acc e.toN else acc
            if e.toN = n then insertIfAbsent acc1 e.fromN else acc1)
          acc ↔
        x ∈ acc ∨ ∃ e ∈ es, (e.fromN = n ∧ e.toN = x) ∨ (e.toN = n ∧ e.fromN = x)) := by
  intro es
  induction es with
  | nil => intro acc hacc; simpa using hacc
  | cons e es ih =>
    intro acc hacc
    have hstep : (let acc1 := if e.fromN = n then insertIfAbsent acc e.toN else acc
        if e.toN = n then insertIfAbsent acc1 e.fromN else acc1).Nodup := by
      by_cases h1 : e.fromN = n <;> by_cases h2 : e.toN = n <;>
        simp [h1, h2] <;>
        first
          | exact nodup_insertIfAbsent (nodup_insertIfAbsent hacc)
          | exact nodup_insertIfAbsent hacc
          | exact hacc
    obtain ⟨hnd, hmem⟩ := ih _ hstep
    refine ⟨hnd, fun x => ?_⟩
    rw [List.foldl_cons] at *
    rw [hmem x, gcn_step_mem]
    constructor
    · rintro ((hx | hx) | ⟨e', he', hx⟩)
      · exact Or.inl hx
      · exact Or.inr ⟨e, List.mem_cons_self e es, hx⟩
      · exact Or.inr ⟨e', List.mem_cons_of_mem e he', hx⟩
    · rintro (hx | ⟨e', he', hx⟩)
      · exact Or.inl (Or.inl hx)
      · rcases List.mem_cons.mp he' with rfl | he'
        · exact Or.inl (Or.inr hx)
        · exact Or.inr ⟨e', he', hx⟩

/-- Claim C5 counterexample: in the graph with the single self-loop edge
`a–a`, `getConnectedNodes` returns `a` itself, which the claim says is
excluded even in the presence of a self-loop. -/
theorem C5_counterexample :
    "a" ∈ getConnectedNodes ⟨["a"], [⟨"a", "a", 5⟩]⟩ "a" := by
  decide

/-- Claim C5 (amended): `connectedNodes(n)` returns, without duplicates,
exactly the ids opposite `n` on some incident edge — which includes `n`
itself exactly when a self-loop at `n` is present. -/
theorem C5_connectedNodes_amended (g : Graph) (n : String) :
    (getConnectedNodes g n).Nodup ∧
      (∀ x, x ∈ getConnectedNodes g n ↔
        ∃ e ∈ g.edges, (e.fromN = n ∧ e.toN = x) ∨ (e.toN = n ∧ e.fromN = x)) := by
  have h := gcn_aux n g.edges [] (by simp)
  refine ⟨h.1, fun x => ?_⟩
  rw [getConnectedNodes, h.2 x]
  simp

/-! ## Normalizer lemmas and theorem (C8) -/

theorem foldl_min_le_init (xs : List ℚ) (a : ℚ) : xs.foldl min a ≤ a := by
  induction xs generalizing a with
  | nil => simp
  | cons x xs ih => exact le_trans (ih (min a x)) (min_le_left a x)

theorem foldl_min_le_mem (xs : List ℚ) (x : ℚ) (hx : x ∈ xs) :
    ∀ a, xs.foldl min a ≤ x := by
  induction xs with
  | nil => cases hx
  | cons y ys ih =>
    intro a
    rcases List.mem_cons.mp hx with rfl | hx'
    · exact le_trans (foldl_min_le_init ys (min a x)) (min_le_right a x)
    · exact ih hx' (min a y)

theorem foldl_min_mem (xs : List ℚ) (a : ℚ) :
    xs.foldl min a = a ∨ xs.foldl min a ∈ xs := by
  induction xs generalizing a with
  | nil => simp
  | cons y ys ih =>
    rcases ih (min a y) with h | h
    · rcases min_choice a y with hm | hm
      · exact Or.inl (by rw [List.foldl_cons, h, hm])
      · exact Or.inr (by rw [List.foldl_cons, h, hm]; exact List.mem_cons_self y ys)
    · exact Or.inr (List.mem_cons_of_mem y h)

theorem le_foldl_max_init (xs : List ℚ) (a : ℚ) : a ≤ xs.foldl max a := by
  induction xs generalizing a with
  | nil => simp
  | cons x xs ih => exact le_trans (le_max_left a x) (ih (max a x))

theorem mem_le_foldl_max (xs : List ℚ) (x : ℚ) (hx : x ∈ xs) :
    ∀ a, x ≤ xs.foldl max a := by
  induction xs with
  | nil => cases hx
  | cons y ys ih =>
    intro a
    rcases List.mem_cons.mp hx with rfl | hx'
    · exact le_trans (le_max_right a x) (le_foldl_max_init ys (max a x))
    · exact ih hx' (max a y)

theorem foldl_max_mem (xs : List ℚ) (a : ℚ) :
    xs.foldl max a = a ∨ xs.foldl max a ∈ xs := by
  induction xs generalizing a with
  | nil => simp
  | cons y ys ih =>
    rcases ih (max a y) with h | h
    · rcases max_choice a y with hm | hm
      · exact Or.inl (by rw [List.foldl_cons, h, hm])
      · exact Or.inr (by rw [List.foldl_cons, h, hm]; exact List.mem_cons_self y ys)
    · exact Or.inr (List.mem_cons_of_mem y h)

theorem minList_le (l : List ℚ) (x : ℚ) (hx : x ∈ l) : minList l ≤ x := by
  cases l with
  | nil => cases hx
  | cons y ys =>
    rcases List.mem_cons.mp hx with rfl | hx
    · exact foldl_min_le_init ys x
    · exact foldl_min_le_mem ys x hx y

theorem le_maxList (l : List ℚ) (x : ℚ) (hx : x ∈ l) : x ≤ maxList l := by
  cases l with
  | nil => cases hx
  | cons y ys =>
    rcases List.mem_cons.mp hx with rfl | hx
    · exact le_foldl_max_init ys x
    · exact mem_le_foldl_max ys x hx y

theorem minList_mem (l : List ℚ) (h : l ≠ []) : minList l ∈ l := by
  cases l with
  | nil => exact absurd rfl h
  | cons y ys =>
    rcases foldl_min_mem ys y with h1 | h1
    · rw [minList, h1]; exact List.mem_cons_self y ys
    · exact List.mem_cons_of_mem y h1

theorem maxList_mem (l : List ℚ) (h : l ≠ []) : maxList l ∈ l := by
  cases l with
  | nil => exact absurd rfl h
  | cons y ys =>
    rcases foldl_max_mem ys y with h1 | h1
    · rw [maxList, h1]; exact List.mem_cons_self y ys
    · exact List.mem_cons_of_mem y h1

/-- Claim C8: the normalizer stays in [0,1], sends a minimum score to 0
and a maximum score to 1 whenever two scores differ, and sends every node
to 0.5 when all scores are equal (including the single-node case). -/
theorem C8_normalizer (scores : List (String × ℚ)) (hne : scores ≠ []) :
    (∀ pr ∈ scores.zip (getNormalizedWeights scores),
      pr.2.1 = pr.1.1 ∧
      0 ≤ pr.2.2 ∧ pr.2.2 ≤ 1 ∧
      (minList (scores.map Prod.snd) < maxList (scores.map Prod.snd) →
        pr.1.2 = minList (scores.map Prod.snd) → pr.2.2 = 0) ∧
      (minList (scores.map Prod.snd) < maxList (scores.map Prod.snd) →
        pr.1.2 = maxList (scores.map Prod.snd) → pr.2.2 = 1) ∧
      (minList (scores.map Prod.snd) = maxList (scores.map Prod.snd) →
        pr.2.2 = 1 / 2)) ∧
    ((∃ p ∈ scores, ∃ q ∈ scores, p.2 ≠ q.2) ↔
      minList (scores.map Prod.snd) < maxList (scores.map Prod.snd)) ∧
    (∃ p ∈ scores, p.2 = minList (scores.map Prod.snd)) ∧
    (∃ p ∈ scores, p.2 = maxList (scores.map Prod.snd)) := by
  set vals := scores.map Prod.snd with hvals
  have hvne : vals ≠ [] := by
    simpa [hvals, List.map_eq_nil_iff] using hne
  have hminmem : minList vals ∈ vals := minList_mem vals hvne
  have hmaxmem : maxList vals ∈ vals := maxList_mem vals hvne
  have hminmax : minList vals ≤ maxList vals := le_maxList vals _ hminmem
  have hzipgen : ∀ (l : List (String × ℚ)) (f : String × ℚ → String × ℚ),
      l.zip (l.map f) = l.map (fun p => (p, f p)) := by
    intro l f
    induction l with
    | nil => rfl
    | cons p ps ih => simp [ih]
  have hout : getNormalizedWeights scores =
      scores.map (fun p => (p.1, if 0 < maxList vals - minList vals
        then (p.2 - minList vals) / (maxList vals - minList vals) else 1 / 2)) := rfl
  have hzip : scores.zip (getNormalizedWeights scores) =
      scores.map (fun p => (p,
        (p.1, if 0 < maxList vals - minList vals
          then (p.2 - minList vals) / (maxList vals - minList vals) else 1 / 2))) := by
    rw [hout, hzipgen]
  refine ⟨?_, ?_, ?_, ?_⟩
  · intro pr hpr
    rw [hzip] at hpr
    obtain ⟨p, hp, rfl⟩ := List.mem_map.mp hpr
    have hpval : p.2 ∈ vals := by
      rw [hvals]; exact List.mem_map.mpr ⟨p, hp, rfl⟩
    have hple : minList vals ≤ p.2 := minList_le vals _ hpval
    have hpge : p.2 ≤ maxList vals := le_maxList vals _ hpval
    refine ⟨rfl, ?_, ?_, ?_, ?_, ?_⟩
    · dsimp only
      split <;> rename_i hrange
      · exact div_nonneg (by linarith) (le_of_lt hrange)
      · norm_num
    · dsimp only
      split <;> rename_i hrange
      · rw [div_le_one hrange]; linarith
      · norm_num
    · intro hlt hmin
      dsimp only
      rw [if_pos (by linarith), hmin, sub_self, zero_div]
    · intro hlt hmax
      dsimp only
      rw [if_pos (by linarith), hmax, div_self (by linarith)]
    · intro heq
      dsimp only
      rw [if_neg (by rw [heq]; simp)]
  · constructor
    · rintro ⟨p, hp, q, hq, hpq⟩
      rcases lt_or_eq_of_le hminmax with h | h
      · exact h
      · exfalso
        have hpv : p.2 ∈ vals := by rw [hvals]; exact List.mem_map.mpr ⟨p, hp, rfl⟩
        have hqv : q.2 ∈ vals := by rw [hvals]; exact List.mem_map.mpr ⟨q, hq, rfl⟩
        have h1 : p.2 = minList vals :=
          le_antisymm (h ▸ le_maxList vals _ hpv) (minList_le vals _ hpv)
        have h2 : q.2 = minList vals :=
          le_antisymm (h ▸ le_maxList vals _ hqv) (minList_le vals _ hqv)
        exact hpq (h1.trans h2.symm)
    · intro hlt
      obtain ⟨p, hp, hpv⟩ := List.mem_map.mp (hvals ▸ hminmem)
      obtain ⟨q, hq, hqv⟩ := List.mem_map.mp (hvals ▸ hmaxmem)
      exact ⟨p, hp, q, hq, by rw [hpv, hqv]; exact ne_of_lt hlt⟩
  · obtain ⟨p, hp, hpv⟩ := List.mem_map.mp (hvals ▸ hminmem)
    exact ⟨p, hp, hpv⟩
  · obtain ⟨p, hp, hpv⟩ := List.mem_map.mp (hvals ▸ hmaxmem)
    exact ⟨p, hp, hpv⟩

/-- Witness for C8 at a concrete input. -/
theorem C8_witness :
    ∃ p ∈ [("a", (10 : ℚ)), ("b", 4), ("c", 7)],
      p.2 = minList ([("a", (10 : ℚ)), ("b", 4), ("c", 7)].map Prod.snd) :=
  (C8_normalizer [("a", (10 : ℚ)), ("b", 4), ("c", 7)] (by decide)).2.2.1

/-! ## Layout planner theorems (C2) -/

theorem lookup_map_pair {β : Type _} (f : String → β) :
    ∀ (l : List String) (v : String), v ∈ l →
      (l.map (fun x => (x, f x))).lookup v = some (f v) := by
  intro l
  induction l with
  | nil => intro v hv; cases hv
  | cons x xs ih =>
    intro v hv
    rcases List.mem_cons.mp hv with rfl | hv
    · simp [List.lookup]
    · by_cases hvx : v = x
      · subst hvx; simp [List.lookup]
      · simp only [List.map_cons, List.lookup,
          beq_eq_false_iff_ne.mpr hvx]
        exact ih v hv

theorem calcEnhanced_eq_map (g : VizGraph) (bw : String → ℚ) :
    calculateEnhancedImportance g bw = g.nodes.map (fun v =>
      (v, ({ degree := degreeOf g v
             totalWeight := totalWeightOf g v
             avgWeight := avgWeightOf g v
             compositeScore := compositeScoreOf g bw v
             normalized :=
               ((getNormalizedWeights
                  ((g.nodes.map (fun x =>
                    (x, ({ degree := degreeOf g x
                           totalWeight := totalWeightOf g x
                           avgWeight := avgWeightOf g x
                           compositeScore := compositeScoreOf g bw x
                           normalized := 0 } : ImpScore)))).map
                      (fun p => (p.1, p.2.compositeScore)))).lookup v).getD 0 }
        : ImpScore))) := by
  rw [calculateEnhancedImportance, List.map_map]
  rfl

theorem scoreOr1_calcEnhanced (g : VizGraph) (bw : String → ℚ) (v : String)
    (hv : v ∈ g.nodes) :
    scoreOr1 (calculateEnhancedImportance g bw) v =
      if compositeScoreOf g bw v = 0 then 1 else compositeScoreOf g bw v := by
  rw [scoreOr1, calcEnhanced_eq_map, lookup_map_pair _ g.nodes v hv]

/-- Claim C2 counterexample: for the graph parsed from `{a}(10){b}` the
`idealEdgeLength` callback returns 145, while the spec's formula over the
normalized importances (both 0.5 here) returns 164: the code reads the raw
`compositeScore` (10), not the normalized importance. -/
theorem C2_counterexample :
    idealEdgeLength
        (calculateEnhancedImportance ⟨["a", "b"], [⟨"a", "b", 10⟩]⟩ (fun _ => 0))
        ⟨"a", "b", 10⟩ = 145 ∧
      idealEdgeLengthSpec
        (calculateEnhancedImportance ⟨["a", "b"], [⟨"a", "b", 10⟩]⟩ (fun _ => 0))
        ⟨"a", "b", 10⟩ = 164 ∧
      (145 : ℚ) ≠ 164 := by
  refine ⟨?_, ?_, by norm_num⟩ <;>
    norm_num [idealEdgeLength, idealEdgeLengthSpec, scoreOr1,
      calculateEnhancedImportance, getNormalizedWeights, minList, maxList,
      compositeScoreOf, avgWeightOf, totalWeightOf, degreeOf,
      connectedEdgesOf, incident, List.lookup,
      show ("b" == "a") = false from rfl, show ("a" == "a") = true from rfl,
      show ("b" == "b") = true from rfl]

/-- Claim C2 (amended): the planner's ideal edge length is
`max(50, 200 − (w/20)*70 − (max(cs(src), cs(tgt))/25)*50)` where `cs` is
the raw composite score of the endpoint, with 1 substituted when it is 0
(the `|| 1` fallback) — not the min-max normalized importance. -/
theorem C2_idealEdgeLength_amended (g : VizGraph) (bw : String → ℚ) (e : VEdge)
    (hs : e.src ∈ g.nodes) (ht : e.tgt ∈ g.nodes) :
    idealEdgeLength (calculateEnhancedImportance g bw) e =
      max 50 (200 - e.weight / 20 * 70 -
        max (if compositeScoreOf g bw e.src = 0 then 1 else compositeScoreOf g bw e.src)
            (if compositeScoreOf g bw e.tgt = 0 then 1 else compositeScoreOf g bw e.tgt)
          / 25 * 50) := by
  rw [idealEdgeLength, scoreOr1_calcEnhanced g bw e.src hs,
    scoreOr1_calcEnhanced g bw e.tgt ht]

/-- Witness for C2 (amended) at a concrete input. -/
theorem C2_witness :
    idealEdgeLength
        (calculateEnhancedImportance ⟨["a", "b"], [⟨"a", "b", 10⟩]⟩ (fun _ => 0))
        ⟨"a", "b", 10⟩ =
      max 50 (200 - (10 : ℚ) / 20 * 70 -
        max (if compositeScoreOf ⟨["a", "b"], [⟨"a", "b", 10⟩]⟩ (fun _ => 0) "a" = 0
              then 1 else compositeScoreOf ⟨["a", "b"], [⟨"a", "b", 10⟩]⟩ (fun _ => 0) "a")
            (if compositeScoreOf ⟨["a", "b"], [⟨"a", "b", 10⟩]⟩ (fun _ => 0) "b" = 0
              then 1 else compositeScoreOf ⟨["a", "b"], [⟨"a", "b", 10⟩]⟩ (fun _ => 0) "b")
          / 25 * 50) :=
  C2_idealEdgeLength_amended ⟨["a", "b"], [⟨"a", "b", 10⟩]⟩ (fun _ => 0)
    ⟨"a", "b", 10⟩ (by decide) (by decide)

/-! ## Persistence theorems (C4) -/

/-- Claim C4 counterexample: the valid-JSON value
`{"nodes": [], "edges": [{}]}` does not match the persisted schema, yet
loading it produces no user-visible error and replaces the in-memory
graph. -/
theorem C4_counterexample :
    matchesSchema (.jobj [("nodes", .jarr []), ("edges", .jarr [.jobj []])]) = false ∧
      handleLoad ⟨.jnull⟩
          (some (some (.jobj [("nodes", .jarr []), ("edges", .jarr [.jobj []])]))) =
        (⟨.jobj [("nodes", .jarr []), ("edges", .jarr [.jobj []])]⟩, false) ∧
      JValue.jobj [("nodes", .jarr []), ("edges", .jarr [.jobj []])] ≠ .jnull :=
  ⟨rfl, rfl, fun h => JValue.noConfusion h⟩

theorem matchesSchema_not_throws (v : JValue) (h : matchesSchema v = true) :
    toCytoThrows v = false := by
  cases v with
  | jobj fs =>
    have h' : (match fs.lookup "nodes" with
        | some (.jarr ns) => ns.all isNodeRec
        | _ => false) = true ∧
      (match fs.lookup "edges" with
        | some (.jarr es) => es.all isEdgeRec
        | _ => false) = true := by
      rw [← Bool.and_eq_true]; exact h
    obtain ⟨h1, h2⟩ := h'
    rcases hn : fs.lookup "nodes" with _ | vn <;> rw [hn] at h1
    · exact Bool.noConfusion h1
    · rcases he : fs.lookup "edges" with _ | ve <;> rw [he] at h2
      · exact Bool.noConfusion h2
      · cases vn with
        | jarr ns =>
          cases ve with
          | jarr es =>
            have hnodes : ns.any isNullVal = false := by
              rw [Bool.eq_false_iff]
              intro hany
              obtain ⟨n, hnn, hnull⟩ := List.any_eq_true.mp hany
              have hrec := List.all_eq_true.mp h1 n hnn
              cases n <;> first
                | exact Bool.noConfusion hrec
                | exact Bool.noConfusion hnull
            have hedges : es.any isNullVal = false := by
              rw [Bool.eq_false_iff]
              intro hany
              obtain ⟨e, hee, hnull⟩ := List.any_eq_true.mp hany
              have hrec := List.all_eq_true.mp h2 e hee
              cases e <;> first
                | exact Bool.noConfusion hrec
                | exact Bool.noConfusion hnull
            simp only [toCytoThrows, hn, he, hnodes, hedges, Bool.or_false]
          | jnull => exact Bool.noConfusion h2
          | jbool b => exact Bool.noConfusion h2
          | jnum q => exact Bool.noConfusion h2
          | jstr s => exact Bool.noConfusion h2
          | jobj fs2 => exact Bool.noConfusion h2
        | jnull => exact Bool.noConfusion h1
        | jbool b => exact Bool.noConfusion h1
        | jnum q => exact Bool.noConfusion h1
        | jstr s => exact Bool.noConfusion h1
        | jobj fs2 => exact Bool.noConfusion h1
  | jnull => exact Bool.noConfusion h
  | jbool b => exact Bool.noConfusion h
  | jnum q => exact Bool.noConfusion h
  | jstr s => exact Bool.noConfusion h
  | jarr l => exact Bool.noConfusion h

/-- Claim C4 (amended): only unparseable content produces the
"Invalid JSON file" alert with the graph left unchanged; any successfully
parsed value replaces the in-memory graph without schema validation — a
further alert is raised exactly when the element conversion throws, i.e.
when the value lacks top-level `nodes` and `edges` arrays or one of those
arrays contains a `null` entry, and then only after the graph state was
already replaced.  Any schema-conforming value loads silently, and the
schema-mismatched value `\x7b"nodes": [null], "edges": []\x7d` alerts with
the graph nevertheless replaced. -/
theorem C4_load_amended (st : AppState) :
    handleLoad st none = (st, false) ∧
      handleLoad st (some none) = (st, true) ∧
      (∀ v, (handleLoad st (some (some v))).1.graphData = v ∧
        ((handleLoad st (some (some v))).2 = true ↔ toCytoThrows v = true) ∧
        (matchesSchema v = true → handleLoad st (some (some v)) = (⟨v⟩, false))) ∧
      handleLoad st (some (some (.jobj [("nodes", .jarr [.jnull]), ("edges", .jarr [])]))) =
        (⟨.jobj [("nodes", .jarr [.jnull]), ("edges", .jarr [])]⟩, true) := by
  refine ⟨rfl, rfl, fun v => ⟨?_, ?_, ?_⟩, rfl⟩
  · rw [handleLoad]
    split <;> rfl
  · rw [handleLoad]
    rcases h : toCytoThrows v with _ | _ <;> simp [h]
  · intro hv
    rw [handleLoad, if_neg (by rw [matchesSchema_not_throws v hv]; exact Bool.false_ne_true)]

/-- Witness for C4 (amended) at a concrete input. -/
theorem C4_witness :
    handleLoad ⟨.jnull⟩ (some (some (.jobj [("nodes", .jarr []), ("edges", .jarr [])]))) =
      (⟨.jobj [("nodes", .jarr []), ("edges", .jarr [])]⟩, false) :=
  ((C4_load_amended ⟨.jnull⟩).2.2.1
    (.jobj [("nodes", .jarr []), ("edges", .jarr [])])).2.2 rfl

/-! ## Tier assignment theorems (C9) -/

instance : IsTotal (String × ℚ) scoreDesc :=
  ⟨fun a b => le_total b.2 a.2⟩

instance : IsTrans (String × ℚ) scoreDesc :=
  ⟨fun _ _ _ h1 h2 => le_trans h2 h1⟩

theorem tierOf_100 (i : ℕ) :
    tierOf i 100 = if i < 10 then 0 else if i < 30 then 1 else if i < 60 then 2 else 3 := by
  have h1 : ((i : ℚ) / 100 < 1 / 10) ↔ i < 10 := by
    rw [div_lt_iff₀ (show (0 : ℚ) < 100 by norm_num)]
    norm_num
  have h2 : ((i : ℚ) / 100 < 3 / 10) ↔ i < 30 := by
    rw [div_lt_iff₀ (show (0 : ℚ) < 100 by norm_num)]
    norm_num
  have h3 : ((i : ℚ) / 100 < 6 / 10) ↔ i < 60 := by
    rw [div_lt_iff₀ (show (0 : ℚ) < 100 by norm_num)]
    norm_num
  simp only [tierOf, Nat.cast_ofNat, h1, h2, h3]

theorem determineNodeTiers_def (scores : List (String × ℚ)) :
    determineNodeTiers scores = (List.insertionSort scoreDesc scores).enum.map
      (fun ip => (ip.2.1, tierOf ip.1 scores.length)) := rfl

theorem determineNodeTiers_map_fst (scores : List (String × ℚ)) :
    (determineNodeTiers scores).map Prod.fst =
      (List.insertionSort scoreDesc scores).map Prod.fst := by
  rw [determineNodeTiers_def, List.map_map]
  rw [show (Prod.fst ∘ fun ip : ℕ × (String × ℚ) =>
      (ip.2.1, tierOf ip.1 scores.length)) = (Prod.fst ∘ Prod.snd) from rfl]
  rw [show (Prod.fst ∘ Prod.snd : ℕ × (String × ℚ) → String) =
      (Prod.fst ∘ (Prod.snd : ℕ × (String × ℚ) → String × ℚ)) from rfl]
  rw [← List.map_map, List.enum_map_snd]

theorem determineNodeTiers_countP (scores : List (String × ℚ)) (t : ℕ) :
    (determineNodeTiers scores).countP (fun p => decide (p.2 = t)) =
      (List.range scores.length).countP (fun i => decide (tierOf i scores.length = t)) := by
  rw [determineNodeTiers_def, List.countP_map]
  rw [show ((fun p : String × ℕ => decide (p.2 = t)) ∘
      (fun ip : ℕ × (String × ℚ) => (ip.2.1, tierOf ip.1 scores.length))) =
      ((fun i => decide (tierOf i scores.length = t)) ∘ Prod.fst) from rfl]
  rw [← List.countP_map, List.enum_map_fst,
    (List.perm_insertionSort scoreDesc scores).length_eq]

/-- Claim C9: tier assignment gives every node one tier in 0..3 by
descending composite-score rank with the percentile cutoffs 0.10 / 0.30 /
0.60, and any 100-node input gets exactly 10 / 20 / 30 / 40 nodes in
tiers 0 / 1 / 2 / 3. -/
theorem C9_tier_assignment (scores : List (String × ℚ)) :
    ((determineNodeTiers scores).map Prod.fst).Perm (scores.map Prod.fst) ∧
    (∀ p ∈ determineNodeTiers scores, p.2 ≤ 3) ∧
    ((scores.map Prod.fst).Nodup → ((determineNodeTiers scores).map Prod.fst).Nodup) ∧
    (∃ s : List (String × ℚ), s.Perm scores ∧ List.Sorted scoreDesc s ∧
      determineNodeTiers scores =
        s.enum.map (fun ip => (ip.2.1, tierOf ip.1 scores.length))) ∧
    (scores.length = 100 →
      ((determineNodeTiers scores).countP (fun p => decide (p.2 = 0)) = 10 ∧
       (determineNodeTiers scores).countP (fun p => decide (p.2 = 1)) = 20 ∧
       (determineNodeTiers scores).countP (fun p => decide (p.2 = 2)) = 30 ∧
       (determineNodeTiers scores).countP (fun p => decide (p.2 = 3)) = 40)) := by
  have hperm : (List.insertionSort scoreDesc scores).Perm scores :=
    List.perm_insertionSort _ _
  have hp1 : ((determineNodeTiers scores).map Prod.fst).Perm (scores.map Prod.fst) := by
    rw [determineNodeTiers_map_fst]
    exact hperm.map Prod.fst
  refine ⟨hp1, ?_, ?_, ?_, ?_⟩
  · intro p hp
    rw [determineNodeTiers_def] at hp
    obtain ⟨ip, _, rfl⟩ := List.mem_map.mp hp
    show tierOf ip.1 scores.length ≤ 3
    rw [tierOf]
    split_ifs <;> omega
  · intro h
    exact hp1.nodup_iff.mpr h
  · exact ⟨List.insertionSort scoreDesc scores, hperm,
      List.sorted_insertionSort scoreDesc scores, determineNodeTiers_def scores⟩
  · intro h100
    have hcong : ∀ t : ℕ, (List.range 100).countP
          (fun i => decide (tierOf i 100 = t)) =
        (List.range 100).countP (fun i => decide
          ((if i < 10 then 0 else if i < 30 then 1 else if i < 60 then 2 else 3) = t)) := by
      intro t
      exact List.countP_congr (fun i _ => by rw [tierOf_100])
    refine ⟨?_, ?_, ?_, ?_⟩ <;>
      · rw [determineNodeTiers_countP, h100, hcong]
        decide

/-! ## Crossing-penalty theorems (C7) -/

theorem foldl_append_bind {α β : Type _} (f : α → List β) :
    ∀ (l : List α) (init : List β),
      l.foldl (fun acc x => acc ++ f x) init = init ++ l.flatMap f
  | [], init => by simp
  | x :: l, init => by
    rw [List.foldl_cons, foldl_append_bind f l (init ++ f x), List.flatMap_cons,
      List.append_assoc]

theorem penaltyTable_eq (g : VizGraph) :
    penaltyTable g = (pairsLT g.nodes).flatMap
      (fun p => [((p.1, p.2), rawPenalty g p.1 p.2), ((p.2, p.1), rawPenalty g p.1 p.2)]) := by
  have h := foldl_append_bind
    (fun p : String × String =>
      [((p.1, p.2), rawPenalty g p.1 p.2), ((p.2, p.1), rawPenalty g p.1 p.2)])
    (pairsLT g.nodes) []
  rw [List.nil_append] at h
  exact h

theorem lookup_append_cases {β : Type _} (a : (String × String)) :
    ∀ (l1 l2 : List ((String × String) × β)),
      (l1 ++ l2).lookup a =
        match l1.lookup a with
        | some v => some v
        | none => l2.lookup a
  | [], _ => rfl
  | (k, v) :: t, l2 => by
    rw [List.cons_append, List.lookup_cons, List.lookup_cons]
    cases a == k
    · exact lookup_append_cases a t l2
    · rfl

theorem beq_pair_swap (A B x y : String) :
    (((B, A) : String × String) == (y, x)) = (((A, B) : String × String) == (x, y)) := by
  by_cases h : A = x ∧ B = y
  · obtain ⟨rfl, rfl⟩ := h
    simp
  · have h1 : ((A, B) : String × String) ≠ (x, y) := by
      intro hh
      exact h ⟨congrArg Prod.fst hh, congrArg Prod.snd hh⟩
    have h2 : ((B, A) : String × String) ≠ (y, x) := by
      intro hh
      exact h ⟨congrArg Prod.snd hh, congrArg Prod.fst hh⟩
    rw [beq_eq_false_iff_ne.mpr h2, beq_eq_false_iff_ne.mpr h1]

theorem lookup_blocks_symm (w : String × String → ℤ) :
    ∀ (ps : List (String × String)) (A B : String),
      (ps.flatMap (fun p => [((p.1, p.2), w p), ((p.2, p.1), w p)])).lookup (A, B) =
        (ps.flatMap (fun p => [((p.1, p.2), w p), ((p.2, p.1), w p)])).lookup (B, A) := by
  intro ps
  induction ps with
  | nil => intro A B; rfl
  | cons p ps ih =>
    intro A B
    rcases p with ⟨x, y⟩
    simp only [List.flatMap_cons, List.cons_append, List.nil_append, List.lookup_cons]
    rw [beq_pair_swap A B x y, beq_pair_swap A B y x]
    rcases hc1 : (((A, B) : String × String) == (x, y)) with _ | _ <;>
      rcases hc2 : (((A, B) : String × String) == (y, x)) with _ | _ <;>
        simp only [hc1, hc2]
    exact ih A B

theorem lookup_blocks_hit_left (w : String × String → ℤ) (x B : String) (hBx : B ≠ x) :
    ∀ (xs : List String), B ∈ xs →
      ((xs.map (fun y => (x, y))).flatMap
        (fun p => [((p.1, p.2), w p), ((p.2, p.1), w p)])).lookup (x, B) =
        some (w (x, B)) := by
  intro xs
  induction xs with
  | nil => intro h; cases h
  | cons y ys ih =>
    intro hB
    simp only [List.map_cons, List.flatMap_cons, List.cons_append, List.nil_append,
      List.lookup_cons]
    by_cases hBy : B = y
    · subst hBy
      simp
    · have k1 : (((x, B) : String × String) == (x, y)) = false :=
        beq_eq_false_iff_ne.mpr (fun hh => hBy (congrArg Prod.snd hh))
      have k2 : (((x, B) : String × String) == (y, x)) = false :=
        beq_eq_false_iff_ne.mpr (fun hh => hBx (congrArg Prod.snd hh))
      rcases List.mem_cons.mp hB with rfl | hB'
      · exact absurd rfl hBy
      · simp only [k1, k2]
        exact ih hB'

theorem lookup_blocks_hit_right (w : String × String → ℤ) (x A : String) (hAx : A ≠ x) :
    ∀ (xs : List String), A ∈ xs →
      ((xs.map (fun y => (x, y))).flatMap
        (fun p => [((p.1, p.2), w p), ((p.2, p.1), w p)])).lookup (A, x) =
        some (w (x, A)) := by
  intro xs
  induction xs with
  | nil => intro h; cases h
  | cons y ys ih =>
    intro hA
    simp only [List.map_cons, List.flatMap_cons, List.cons_append, List.nil_append,
      List.lookup_cons]
    by_cases hAy : A = y
    · subst hAy
      have k1 : (((A, x) : String × String) == (x, A)) = false :=
        beq_eq_false_iff_ne.mpr (fun hh => hAx (congrArg Prod.fst hh))
      simp only [k1]
      simp
    · have k1 : (((A, x) : String × String) == (x, y)) = false :=
        beq_eq_false_iff_ne.mpr (fun hh => hAx (congrArg Prod.fst hh))
      have k2 : (((A, x) : String × String) == (y, x)) = false :=
        beq_eq_false_iff_ne.mpr (fun hh => hAy (congrArg Prod.fst hh))
      rcases List.mem_cons.mp hA with rfl | hA'
      · exact absurd rfl hAy
      · simp only [k1, k2]
        exact ih hA'

theorem lookup_blocks_miss (w : String × String → ℤ) (x A B : String)
    (hAx : A ≠ x) (hBx : B ≠ x) :
    ∀ (xs : List String),
      ((xs.map (fun y => (x, y))).flatMap
        (fun p => [((p.1, p.2), w p), ((p.2, p.1), w p)])).lookup (A, B) = none := by
  intro xs
  induction xs with
  | nil => rfl
  | cons y ys ih =>
    simp only [List.map_cons, List.flatMap_cons, List.cons_append, List.nil_append,
      List.lookup_cons]
    have k1 : (((A, B) : String × String) == (x, y)) = false :=
      beq_eq_false_iff_ne.mpr (fun hh => hAx (congrArg Prod.fst hh))
    have k2 : (((A, B) : String × String) == (y, x)) = false :=
      beq_eq_false_iff_ne.mpr (fun hh => hBx (congrArg Prod.snd hh))
    simp only [k1, k2]
    exact ih

theorem lookup_pairsLT (w : String × String → ℤ) :
    ∀ (ns : List String) (A B : String), ns.Nodup → A ∈ ns → B ∈ ns → A ≠ B →
      ((pairsLT ns).flatMap
        (fun p => [((p.1, p.2), w p), ((p.2, p.1), w p)])).lookup (A, B) =
        some (if ns.indexOf A < ns.indexOf B then w (A, B) else w (B, A)) := by
  intro ns
  induction ns with
  | nil => intro A B _ hA; cases hA
  | cons x xs ih =>
    intro A B hnd hA hB hAB
    obtain ⟨hx, hxs⟩ := List.nodup_cons.mp hnd
    rw [pairsLT, List.flatMap_append, lookup_append_cases]
    by_cases hax : A = x
    · subst hax
      have hBxs : B ∈ xs := by
        rcases List.mem_cons.mp hB with h | h
        · exact absurd h.symm hAB
        · exact h
      have hBA : B ≠ A := fun h => hAB h.symm
      rw [lookup_blocks_hit_left w A B hBA xs hBxs]
      rw [if_pos]
      rw [List.indexOf_cons_self, List.indexOf_cons_ne xs hAB]
      exact Nat.succ_pos _
    · by_cases hbx : B = x
      · subst hbx
        have hAxs : A ∈ xs := by
          rcases List.mem_cons.mp hA with h | h
          · exact absurd h hAB
          · exact h
        rw [lookup_blocks_hit_right w B A hax xs hAxs]
        rw [if_neg]
        rw [List.indexOf_cons_self, List.indexOf_cons_ne xs (fun h => hax h.symm)]
        omega
      · have hAxs : A ∈ xs := by
          rcases List.mem_cons.mp hA with h | h
          · exact absurd h hax
          · exact h
        have hBxs : B ∈ xs := by
          rcases List.mem_cons.mp hB with h | h
          · exact absurd h hbx
          · exact h
        rw [lookup_blocks_miss w x A B hax hbx]
        rw [ih A B hxs hAxs hBxs hAB]
        rw [List.indexOf_cons_ne xs (fun h => hax h.symm),
          List.indexOf_cons_ne xs (fun h => hbx h.symm)]
        simp only [Nat.succ_lt_succ_iff]

/-- Claim C7 counterexample: with parallel edges `a–x`, `a–x` and edge
`b–x`, the stored penalty for the pair is −4 in both orders, while the
claim's formula evaluated at (A,B) = (b,a) gives −2 (A-list multiplicity),
and the formula over distinct neighbor ids gives −2 as well: the stored
value is not the claimed order-independent function of the pair. -/
theorem C7_counterexample :
    penaltyLookup parallelSample "a" "b" = some (-4) ∧
      penaltyLookup parallelSample "b" "a" = some (-4) ∧
      rawPenalty parallelSample "b" "a" = -2 ∧
      penaltySpec parallelSample "a" "b" = -2 := by
  refine ⟨by decide, by decide, by decide, by decide⟩

/-- Claim C7 (amended): the stored crossing penalty is symmetric,
`penalty(A,B) == penalty(B,A)`, and equals
`potentialCrossings − 2*shared` computed over the endpoints' connection
lists with multiplicity (parallel edges counted), evaluated with the
pair's earlier node in node order as A. -/
theorem C7_crossing_penalty_amended (g : VizGraph) (A B : String)
    (hnd : g.nodes.Nodup) (hA : A ∈ g.nodes) (hB : B ∈ g.nodes) (hAB : A ≠ B) :
    penaltyLookup g A B = penaltyLookup g B A ∧
      penaltyLookup g A B =
        some (if g.nodes.indexOf A < g.nodes.indexOf B
          then rawPenalty g A B else rawPenalty g B A) := by
  constructor
  · rw [penaltyLookup, penaltyLookup, penaltyTable_eq]
    exact lookup_blocks_symm (fun p => rawPenalty g p.1 p.2) (pairsLT g.nodes) A B
  · rw [penaltyLookup, penaltyTable_eq]
    exact lookup_pairsLT (fun p => rawPenalty g p.1 p.2) g.nodes A B hnd hA hB hAB

/-- Witness for C7 (amended) at a concrete input. -/
theorem C7_witness :
    penaltyLookup ⟨["a", "b"], [⟨"a", "b", 5⟩]⟩ "a" "b" =
      some (if (["a", "b"] : List String).indexOf "a" <
            (["a", "b"] : List String).indexOf "b"
        then rawPenalty ⟨["a", "b"], [⟨"a", "b", 5⟩]⟩ "a" "b"
        else rawPenalty ⟨["a", "b"], [⟨"a", "b", 5⟩]⟩ "b" "a") :=
  (C7_crossing_penalty_amended ⟨["a", "b"], [⟨"a", "b", 5⟩]⟩ "a" "b"
    (by decide) (by decide) (by decide) (by decide)).2

/-! ## Highlight propagation lemmas (C6, C1) -/

@[simp] theorem addTagN_nTag (v : String) (t : Tag) (s : HSt) (x : String) :
    (addTagN v t s).nTag x = if x = v then addClass t (s.nTag x) else s.nTag x := rfl

@[simp] theorem addTagN_eTag (v : String) (t : Tag) (s : HSt) :
    (addTagN v t s).eTag = s.eTag := rfl

@[simp] theorem addTagN_processed (v : String) (t : Tag) (s : HSt) :
    (addTagN v t s).processed = s.processed := rfl

@[simp] theorem addTagE_eTag (i : ℕ) (t : Tag) (s : HSt) (j : ℕ) :
    (addTagE i t s).eTag j = if j = i then addClass t (s.eTag j) else s.eTag j := rfl

@[simp] theorem addTagE_nTag (i : ℕ) (t : Tag) (s : HSt) :
    (addTagE i t s).nTag = s.nTag := rfl

@[simp] theorem addTagE_processed (i : ℕ) (t : Tag) (s : HSt) :
    (addTagE i t s).processed = s.processed := rfl

@[simp] theorem addProc_nTag (v : String) (s : HSt) :
    (addProc v s).nTag = s.nTag := rfl

@[simp] theorem addProc_eTag (v : String) (s : HSt) :
    (addProc v s).eTag = s.eTag := rfl

@[simp] theorem addProc_processed (v : String) (s : HSt) :
    (addProc v s).processed = insertIfAbsent s.processed v := rfl

theorem mem_addClass {t u : Tag} {l : List Tag} :
    u ∈ addClass t l ↔ u ∈ l ∨ u = t := by
  unfold addClass
  split <;> rename_i h
  · constructor
    · exact fun hu => Or.inl hu
    · rintro (hu | rfl) <;> assumption
  · simp

theorem addClass_ne (t : Tag) {l : List Tag} (h : l ≠ []) : addClass t l ≠ [] := by
  unfold addClass
  split
  · exact h
  · simp

theorem addClass_nil_ne (t : Tag) : addClass t [] ≠ [] := by
  unfold addClass
  simp

/-! ### `tagHop` (the inner node loops of hops 1 and 2) -/

theorem tagHop_eTag (t : Tag) :
    ∀ (ns : List String) (s : HSt) (coll : List String),
      (tagHop t ns s coll).1.eTag = s.eTag
  | [], _, _ => rfl
  | _ :: ns, _, _ => tagHop_eTag t ns _ _

theorem tagHop_nTag_cause (t : Tag) :
    ∀ (ns : List String) (s : HSt) (coll : List String) (v : String),
      (tagHop t ns s coll).1.nTag v = s.nTag v ∨ v ∈ ns
  | [], _, _, _ => Or.inl rfl
  | n :: ns, s, coll, v => by
    rcases tagHop_nTag_cause t ns (addProc n (addTagN n t s)) (insertIfAbsent coll n) v with
      h | h
    · by_cases hv : v = n
      · exact Or.inr (hv ▸ List.mem_cons_self n ns)
      · rw [tagHop] at *
        left
        rw [h]
        simp [hv]
    · exact Or.inr (List.mem_cons_of_mem n h)

theorem tagHop_proc_mono (t : Tag) :
    ∀ (ns : List String) (s : HSt) (coll : List String) (v : String),
      v ∈ s.processed → v ∈ (tagHop t ns s coll).1.processed
  | [], _, _, _, hv => hv
  | n :: ns, s, coll, v, hv =>
    tagHop_proc_mono t ns _ _ v (by simpa using sub_insertIfAbsent hv)

theorem tagHop_coll_cause (t : Tag) :
    ∀ (ns : List String) (s : HSt) (coll : List String) (x : String),
      x ∈ (tagHop t ns s coll).2 → x ∈ coll ∨ x ∈ ns
  | [], _, _, _, hx => Or.inl hx
  | n :: ns, s, coll, x, hx => by
    rcases tagHop_coll_cause t ns _ _ x hx with h | h
    · rcases mem_insertIfAbsent.mp h with h | rfl
      · exact Or.inl h
      · exact Or.inr (List.mem_cons_self x ns)
    · exact Or.inr (List.mem_cons_of_mem n h)

/-! ### Hop 1 -/

theorem hop1_nTag_cause (sel : String) :
    ∀ (es : List (ℕ × VEdge)) (s : HSt) (fd : List String) (v : String),
      (hop1 sel es s fd).1.nTag v = s.nTag v ∨
        (v ≠ sel ∧ ∃ ie ∈ es, v ∈ endpointsNE ie.2)
  | [], _, _, _ => Or.inl rfl
  | ie :: rest, s, fd, v => by
    rw [hop1]
    rcases hop1_nTag_cause sel rest _ _ v with h | ⟨hv, ie', hie', hmem⟩
    · rcases tagHop_nTag_cause Tag.d1
          ((endpointsNE ie.2).filter (fun n => decide (n ≠ sel))) (addTagE ie.1 .d1 s)
          fd v with
        h2 | h2
      · left
        rw [h, h2]
        rfl
      · obtain ⟨hmem, hne⟩ := List.mem_filter.mp h2
        exact Or.inr ⟨by simpa using hne, ie, List.mem_cons_self ie rest, hmem⟩
    · exact Or.inr ⟨hv, ie', List.mem_cons_of_mem ie hie', hmem⟩

theorem hop1_eTag_cause (sel : String) :
    ∀ (es : List (ℕ × VEdge)) (s : HSt) (fd : List String) (i : ℕ),
      (hop1 sel es s fd).1.eTag i = s.eTag i ∨ ∃ ie ∈ es, ie.1 = i
  | [], _, _, _ => Or.inl rfl
  | ie :: rest, s, fd, i => by
    rw [hop1]
    rcases hop1_eTag_cause sel rest _ _ i with h | ⟨ie', hie', hi⟩
    · by_cases hii : i = ie.1
      · exact Or.inr ⟨ie, List.mem_cons_self ie rest, hii.symm⟩
      · left
        rw [h, tagHop_eTag]
        simp [hii]
    · exact Or.inr ⟨ie', List.mem_cons_of_mem ie hie', hi⟩

theorem hop1_proc_mono (sel : String) :
    ∀ (es : List (ℕ × VEdge)) (s : HSt) (fd : List String) (v : String),
      v ∈ s.processed → v ∈ (hop1 sel es s fd).1.processed
  | [], _, _, _, hv => hv
  | ie :: rest, s, fd, v, hv => by
    rw [hop1]
    exact hop1_proc_mono sel rest _ _ v
      (tagHop_proc_mono _ _ _ _ v (by simpa using hv))

theorem hop1_fd_cause (sel : String) :
    ∀ (es : List (ℕ × VEdge)) (s : HSt) (fd : List String) (x : String),
      x ∈ (hop1 sel es s fd).2 →
        x ∈ fd ∨ (x ≠ sel ∧ ∃ ie ∈ es, x ∈ endpointsNE ie.2)
  | [], _, _, _, hx => Or.inl hx
  | ie :: rest, s, fd, x, hx => by
    rw [hop1] at hx
    rcases hop1_fd_cause sel rest _ _ x hx with h | ⟨hne, ie', hie', hmem⟩
    · rcases tagHop_coll_cause Tag.d1 _ _ _ x h with h2 | h2
      · exact Or.inl h2
      · obtain ⟨hmem, hne⟩ := List.mem_filter.mp h2
        exact Or.inr ⟨by simpa using hne, ie, List.mem_cons_self ie rest, hmem⟩
    · exact Or.inr ⟨hne, ie', List.mem_cons_of_mem ie hie', hmem⟩

theorem tagHop_d1_inv1 (sel : String) :
    ∀ (ns : List String) (s : HSt) (fd : List String), Inv1 sel s →
      (∀ n ∈ ns, n ≠ sel) → Inv1 sel (tagHop .d1 ns s fd).1
  | [], _, _, hs, _ => hs
  | n :: ns, s, fd, hs, hns => by
    rw [tagHop]
    obtain ⟨h1, h2, h3, h4⟩ := hs
    have hnsel : n ≠ sel := hns n (List.mem_cons_self n ns)
    refine tagHop_d1_inv1 sel ns _ _ ⟨?_, ?_, ?_, ?_⟩
      (fun m hm => hns m (List.mem_cons_of_mem n hm))
    · simp only [addProc_nTag, addTagN_nTag]
      rw [if_neg (fun h : sel = n => hnsel h.symm)]
      exact h1
    · intro v hv
      simp only [addProc_nTag, addTagN_nTag]
      by_cases hvn : v = n
      · rw [if_pos hvn]
        rcases h2 v hv with h | h <;> rw [h]
        · right; rfl
        · right; rfl
      · rw [if_neg hvn]
        exact h2 v hv
    · simpa using h3
    · intro v hv
      simp only [addProc_nTag, addTagN_nTag] at hv
      simp only [addProc_processed, addTagN_processed]
      by_cases hvn : v = n
      · subst hvn
        exact self_mem_insertIfAbsent
      · rw [if_neg hvn] at hv
        exact sub_insertIfAbsent (h4 v hv)

theorem hop1_inv1 (sel : String) :
    ∀ (es : List (ℕ × VEdge)) (s : HSt) (fd : List String), Inv1 sel s →
      Inv1 sel (hop1 sel es s fd).1
  | [], _, _, hs => hs
  | ie :: rest, s, fd, hs => by
    rw [hop1]
    obtain ⟨h1, h2, h3, h4⟩ := hs
    refine hop1_inv1 sel rest _ _
      (tagHop_d1_inv1 sel _ _ _ ⟨h1, h2, ?_, h4⟩ ?_)
    · intro i
      simp only [addTagE_eTag]
      by_cases hii : i = ie.1
      · rw [if_pos hii]
        rcases h3 i with h | h <;> rw [h]
        · right; rfl
        · right; rfl
      · rw [if_neg hii]
        exact h3 i
    · intro n hn
      simpa using (List.mem_filter.mp hn).2

/-! ### Hop 2 -/

theorem Inv1_to_Inv2 (sel : String) (s : HSt) (h : Inv1 sel s) : Inv2 s := by
  obtain ⟨h1, h2, h3, h4⟩ := h
  refine ⟨?_, ?_, h4⟩
  · intro v
    by_cases hv : v = sel
    · subst hv
      rw [h1]
      right; left; rfl
    · rcases h2 v hv with h | h <;> rw [h]
      · left; rfl
      · right; right; left; rfl
  · intro i
    rcases h3 i with h | h <;> rw [h]
    · left; rfl
    · right; left; rfl

theorem tagHop_d2_inv2 :
    ∀ (ns : List String) (s : HSt) (sd : List String), Inv2 s →
      (∀ n ∈ ns, s.nTag n = [] ∨ s.nTag n = [Tag.d2]) →
      Inv2 (tagHop .d2 ns s sd).1
  | [], _, _, hs, _ => hs
  | n :: ns, s, sd, hs, hns => by
    rw [tagHop]
    obtain ⟨h1, h2, h3⟩ := hs
    have hn : s.nTag n = [] ∨ s.nTag n = [Tag.d2] := hns n (List.mem_cons_self n ns)
    have hstep : ∀ v, (addProc n (addTagN n .d2 s)).nTag v = [] ∨
        (addProc n (addTagN n .d2 s)).nTag v = [Tag.selected] ∨
        (addProc n (addTagN n .d2 s)).nTag v = [Tag.d1] ∨
        (addProc n (addTagN n .d2 s)).nTag v = [Tag.d2] := by
      intro v
      simp only [addProc_nTag, addTagN_nTag]
      by_cases hvn : v = n
      · rw [if_pos hvn, hvn]
        rcases hn with h | h <;> rw [h]
        · right; right; right; rfl
        · right; right; right; rfl
      · rw [if_neg hvn]
        exact h1 v
    refine tagHop_d2_inv2 ns _ _ ⟨hstep, by simpa using h2, ?_⟩ ?_
    · intro v hv
      simp only [addProc_nTag, addTagN_nTag] at hv
      simp only [addProc_processed, addTagN_processed]
      by_cases hvn : v = n
      · subst hvn
        exact self_mem_insertIfAbsent
      · rw [if_neg hvn] at hv
        exact sub_insertIfAbsent (h3 v hv)
    · intro m hm
      simp only [addProc_nTag, addTagN_nTag]
      by_cases hmn : m = n
      · rw [if_pos hmn, hmn]
        rcases hn with h | h <;> rw [h]
        · right; rfl
        · right; rfl
      · rw [if_neg hmn]
        exact hns m (List.mem_cons_of_mem n hm)

theorem hop2Edges_inv2 :
    ∀ (es : List (ℕ × VEdge)) (s : HSt) (sd : List String), Inv2 s →
      (∀ ie ∈ es, Tag.d1 ∉ s.eTag ie.1) → Inv2 (hop2Edges es s sd).1
  | [], _, _, hs, _ => hs
  | ie :: rest, s, sd, hs, hes => by
    rw [hop2Edges]
    obtain ⟨h1, h2, h3⟩ := hs
    have hie : Tag.d1 ∉ s.eTag ie.1 := hes ie (List.mem_cons_self ie rest)
    have he2 : ∀ j, (addTagE ie.1 .d2 s).eTag j = [] ∨
        (addTagE ie.1 .d2 s).eTag j = [Tag.d1] ∨
        (addTagE ie.1 .d2 s).eTag j = [Tag.d2] := by
      intro j
      simp only [addTagE_eTag]
      by_cases hj : j = ie.1
      · rw [if_pos hj, hj]
        rcases h2 ie.1 with h | h | h <;> rw [h]
        · right; right; rfl
        · exact absurd (h ▸ List.mem_cons_self _ _) (h ▸ hie)
        · right; right; rfl
      · rw [if_neg hj]
        exact h2 j
    have hinv1 : Inv2 (addTagE ie.1 .d2 s) := ⟨by simpa using h1, he2, by simpa using h3⟩
    have hns : ∀ n ∈ (endpointsNE ie.2).filter
        (fun n => decide (n ∉ (addTagE ie.1 .d2 s).processed)),
        (addTagE ie.1 .d2 s).nTag n = [] ∨ (addTagE ie.1 .d2 s).nTag n = [Tag.d2] := by
      intro n hn
      have hproc : n ∉ (addTagE ie.1 .d2 s).processed := by
        simpa using (List.mem_filter.mp hn).2
      left
      by_contra hne
      exact hproc (hinv1.2.2 n hne)
    refine hop2Edges_inv2 rest _ _ (tagHop_d2_inv2 _ _ _ hinv1 hns) ?_
    intro ie' hie'
    rw [tagHop_eTag]
    simp only [addTagE_eTag]
    by_cases hj : ie'.1 = ie.1
    · rw [if_pos hj, hj]
      intro hmem
      rcases mem_addClass.mp hmem with h | h
      · exact hie h
      · exact Tag.noConfusion h
    · rw [if_neg hj]
      exact hes ie' (List.mem_cons_of_mem ie hie')

theorem hop2Edges_nTag_cause :
    ∀ (es : List (ℕ × VEdge)) (s : HSt) (sd : List String) (v : String),
      (hop2Edges es s sd).1.nTag v = s.nTag v ∨ ∃ ie ∈ es, v ∈ endpointsNE ie.2
  | [], _, _, _ => Or.inl rfl
  | ie :: rest, s, sd, v => by
    rw [hop2Edges]
    rcases hop2Edges_nTag_cause rest _ _ v with h | ⟨ie', hie', hmem⟩
    · rcases tagHop_nTag_cause Tag.d2 _ _ _ v with h2 | h2
      · left
        rw [h, h2]
        rfl
      · exact Or.inr ⟨ie, List.mem_cons_self ie rest, (List.mem_filter.mp h2).1⟩
    · exact Or.inr ⟨ie', List.mem_cons_of_mem ie hie', hmem⟩

theorem hop2Edges_eTag_cause :
    ∀ (es : List (ℕ × VEdge)) (s : HSt) (sd : List String) (i : ℕ),
      (hop2Edges es s sd).1.eTag i = s.eTag i ∨ ∃ ie ∈ es, ie.1 = i
  | [], _, _, _ => Or.inl rfl
  | ie :: rest, s, sd, i => by
    rw [hop2Edges]
    rcases hop2Edges_eTag_cause rest _ _ i with h | ⟨ie', hie', hi⟩
    · by_cases hii : i = ie.1
      · exact Or.inr ⟨ie, List.mem_cons_self ie rest, hii.symm⟩
      · left
        rw [h, tagHop_eTag]
        simp [hii]
    · exact Or.inr ⟨ie', List.mem_cons_of_mem ie hie', hi⟩

theorem hop2Edges_proc_mono :
    ∀ (es : List (ℕ × VEdge)) (s : HSt) (sd : List String) (v : String),
      v ∈ s.processed → v ∈ (hop2Edges es s sd).1.processed
  | [], _, _, _, hv => hv
  | ie :: rest, s, sd, v, hv => by
    rw [hop2Edges]
    exact hop2Edges_proc_mono rest _ _ v
      (tagHop_proc_mono _ _ _ _ v (by simpa using hv))

theorem hop2Edges_sd_cause :
    ∀ (es : List (ℕ × VEdge)) (s : HSt) (sd : List String) (x : String),
      x ∈ (hop2Edges es s sd).2 → x ∈ sd ∨ ∃ ie ∈ es, x ∈ endpointsNE ie.2
  | [], _, _, _, hx => Or.inl hx
  | ie :: rest, s, sd, x, hx => by
    rw [hop2Edges] at hx
    rcases hop2Edges_sd_cause rest _ _ x hx with h | ⟨ie', hie', hmem⟩
    · rcases tagHop_coll_cause Tag.d2 _ _ _ x h with h2 | h2
      · exact Or.inl h2
      · exact Or.inr ⟨ie, List.mem_cons_self ie rest, (List.mem_filter.mp h2).1⟩
    · exact Or.inr ⟨ie', List.mem_cons_of_mem ie hie', hmem⟩

theorem edgesFor2_spec (g : VizGraph) (s : HSt) (nid : String) :
    ∀ ie ∈ edgesFor2 g s nid,
      ie ∈ enumEdges g ∧ incident nid ie.2 = true ∧ Tag.d1 ∉ s.eTag ie.1 := by
  intro ie hie
  obtain ⟨hmem, hcond⟩ := List.mem_filter.mp hie
  simp only [Bool.and_eq_true, decide_eq_true_eq] at hcond
  exact ⟨hmem, hcond.1.1, hcond.1.2⟩

theorem hop2Nodes_inv2 (g : VizGraph) :
    ∀ (nids : List String) (s : HSt) (sd : List String), Inv2 s →
      Inv2 (hop2Nodes g nids s sd).1
  | [], _, _, hs => hs
  | nid :: rest, s, sd, hs => by
    rw [hop2Nodes]
    exact hop2Nodes_inv2 g rest _ _
      (hop2Edges_inv2 _ _ _ hs (fun ie hie => (edgesFor2_spec g s nid ie hie).2.2))

theorem hop2Nodes_nTag_cause (g : VizGraph) :
    ∀ (nids : List String) (s : HSt) (sd : List String) (v : String),
      (hop2Nodes g nids s sd).1.nTag v = s.nTag v ∨
        ∃ nid ∈ nids, ∃ ie ∈ enumEdges g, incident nid ie.2 = true ∧ v ∈ endpointsNE ie.2
  | [], _, _, _ => Or.inl rfl
  | nid :: rest, s, sd, v => by
    rw [hop2Nodes]
    rcases hop2Nodes_nTag_cause g rest _ _ v with h | ⟨nid', hnid', hc⟩
    · rcases hop2Edges_nTag_cause _ _ _ v with h2 | ⟨ie, hie, hmem⟩
      · left
        rw [h, h2]
      · obtain ⟨hmem', hinc, _⟩ := edgesFor2_spec g s nid ie hie
        exact Or.inr ⟨nid, List.mem_cons_self nid rest, ie, hmem', hinc, hmem⟩
    · exact Or.inr ⟨nid', List.mem_cons_of_mem nid hnid', hc⟩

theorem hop2Nodes_eTag_cause (g : VizGraph) :
    ∀ (nids : List String) (s : HSt) (sd : List String) (i : ℕ),
      (hop2Nodes g nids s sd).1.eTag i = s.eTag i ∨
        ∃ nid ∈ nids, ∃ ie ∈ enumEdges g, incident nid ie.2 = true ∧ ie.1 = i
  | [], _, _, _ => Or.inl rfl
  | nid :: rest, s, sd, i => by
    rw [hop2Nodes]
    rcases hop2Nodes_eTag_cause g rest _ _ i with h | ⟨nid', hnid', hc⟩
    · rcases hop2Edges_eTag_cause _ _ _ i with h2 | ⟨ie, hie, hi⟩
      · left
        rw [h, h2]
      · obtain ⟨hmem', hinc, _⟩ := edgesFor2_spec g s nid ie hie
        exact Or.inr ⟨nid, List.mem_cons_self nid rest, ie, hmem', hinc, hi⟩
    · exact Or.inr ⟨nid', List.mem_cons_of_mem nid hnid', hc⟩

theorem hop2Nodes_sd_cause (g : VizGraph) :
    ∀ (nids : List String) (s : HSt) (sd : List String) (x : String),
      x ∈ (hop2Nodes g nids s sd).2 → x ∈ sd ∨
        ∃ nid ∈ nids, ∃ ie ∈ enumEdges g, incident nid ie.2 = true ∧ x ∈ endpointsNE ie.2
  | [], _, _, _, hx => Or.inl hx
  | nid :: rest, s, sd, x, hx => by
    rw [hop2Nodes] at hx
    rcases hop2Nodes_sd_cause g rest _ _ x hx with h | ⟨nid', hnid', hc⟩
    · rcases hop2Edges_sd_cause _ _ _ x h with h2 | ⟨ie, hie, hmem⟩
      · exact Or.inl h2
      · obtain ⟨hmem', hinc, _⟩ := edgesFor2_spec g s nid ie hie
        exact Or.inr ⟨nid, List.mem_cons_self nid rest, ie, hmem', hinc, hmem⟩
    · exact Or.inr ⟨nid', List.mem_cons_of_mem nid hnid', hc⟩

/-! ### Hop 3 -/

theorem Inv2_to_Inv3 (s : HSt) (h : Inv2 s) : Inv3 s := by
  obtain ⟨h1, h2, h3⟩ := h
  refine ⟨?_, ?_, h3⟩
  · intro v
    rcases h1 v with h | h | h | h <;> rw [h] <;> simp
  · intro i
    rcases h2 i with h | h | h <;> rw [h] <;> simp

theorem tagTD_eTag :
    ∀ (ns : List String) (s : HSt), (tagTD ns s).eTag = s.eTag
  | [], _ => rfl
  | _ :: ns, _ => tagTD_eTag ns _

theorem tagTD_nTag_cause :
    ∀ (ns : List String) (s : HSt) (v : String),
      (tagTD ns s).nTag v = s.nTag v ∨ v ∈ ns
  | [], _, _ => Or.inl rfl
  | n :: ns, s, v => by
    rcases tagTD_nTag_cause ns (addProc n (addTagN n .d3 s)) v with h | h
    · by_cases hv : v = n
      · exact Or.inr (hv ▸ List.mem_cons_self n ns)
      · rw [tagTD] at *
        left
        rw [h]
        simp [hv]
    · exact Or.inr (List.mem_cons_of_mem n h)

theorem tagTD_proc_mono :
    ∀ (ns : List String) (s : HSt) (v : String),
      v ∈ s.processed → v ∈ (tagTD ns s).processed
  | [], _, _, hv => hv
  | n :: ns, s, v, hv =>
    tagTD_proc_mono ns _ v (by simpa using sub_insertIfAbsent hv)

theorem tagTD_inv3 :
    ∀ (ns : List String) (s : HSt), Inv3 s →
      (∀ n ∈ ns, s.nTag n = [] ∨ s.nTag n = [Tag.d3]) → Inv3 (tagTD ns s)
  | [], _, hs, _ => hs
  | n :: ns, s, hs, hns => by
    rw [tagTD]
    obtain ⟨h1, h2, h3⟩ := hs
    have hn : s.nTag n = [] ∨ s.nTag n = [Tag.d3] := hns n (List.mem_cons_self n ns)
    have hstep : ∀ v, (addProc n (addTagN n .d3 s)).nTag v = [] ∨
        (addProc n (addTagN n .d3 s)).nTag v = [Tag.selected] ∨
        (addProc n (addTagN n .d3 s)).nTag v = [Tag.d1] ∨
        (addProc n (addTagN n .d3 s)).nTag v = [Tag.d2] ∨
        (addProc n (addTagN n .d3 s)).nTag v = [Tag.d3] := by
      intro v
      simp only [addProc_nTag, addTagN_nTag]
      by_cases hvn : v = n
      · rw [if_pos hvn, hvn]
        rcases hn with h | h <;> rw [h]
        · right; right; right; right; rfl
        · right; right; right; right; rfl
      · rw [if_neg hvn]
        exact h1 v
    refine tagTD_inv3 ns _ ⟨hstep, by simpa using h2, ?_⟩ ?_
    · intro v hv
      simp only [addProc_nTag, addTagN_nTag] at hv
      simp only [addProc_processed, addTagN_processed]
      by_cases hvn : v = n
      · subst hvn
        exact self_mem_insertIfAbsent
      · rw [if_neg hvn] at hv
        exact sub_insertIfAbsent (h3 v hv)
    · intro m hm
      simp only [addProc_nTag, addTagN_nTag]
      by_cases hmn : m = n
      · rw [if_pos hmn, hmn]
        rcases hn with h | h <;> rw [h]
        · right; rfl
        · right; rfl
      · rw [if_neg hmn]
        exact hns m (List.mem_cons_of_mem n hm)

theorem hop3Edges_inv3 :
    ∀ (es : List (ℕ × VEdge)) (s : HSt), Inv3 s →
      (∀ ie ∈ es, Tag.d1 ∉ s.eTag ie.1 ∧ Tag.d2 ∉ s.eTag ie.1) →
      Inv3 (hop3Edges es s)
  | [], _, hs, _ => hs
  | ie :: rest, s, hs, hes => by
    rw [hop3Edges]
    obtain ⟨h1, h2, h3⟩ := hs
    obtain ⟨hie1, hie2⟩ := hes ie (List.mem_cons_self ie rest)
    have he2 : ∀ j, (addTagE ie.1 .d3 s).eTag j = [] ∨
        (addTagE ie.1 .d3 s).eTag j = [Tag.d1] ∨
        (addTagE ie.1 .d3 s).eTag j = [Tag.d2] ∨
        (addTagE ie.1 .d3 s).eTag j = [Tag.d3] := by
      intro j
      simp only [addTagE_eTag]
      by_cases hj : j = ie.1
      · rw [if_pos hj, hj]
        rcases h2 ie.1 with h | h | h | h <;> rw [h]
        · right; right; right; rfl
        · exact absurd (h ▸ List.mem_cons_self _ _) (h ▸ hie1)
        · exact absurd (h ▸ List.mem_cons_self _ _) (h ▸ hie2)
        · right; right; right; rfl
      · rw [if_neg hj]
        exact h2 j
    have hinv1 : Inv3 (addTagE ie.1 .d3 s) := ⟨by simpa using h1, he2, by simpa using h3⟩
    have hns : ∀ n ∈ (endpointsNE ie.2).filter
        (fun n => decide (n ∉ (addTagE ie.1 .d3 s).processed)),
        (addTagE ie.1 .d3 s).nTag n = [] ∨ (addTagE ie.1 .d3 s).nTag n = [Tag.d3] := by
      intro n hn
      have hproc : n ∉ (addTagE ie.1 .d3 s).processed := by
        simpa using (List.mem_filter.mp hn).2
      left
      by_contra hne
      exact hproc (hinv1.2.2 n hne)
    refine hop3Edges_inv3 rest _ (tagTD_inv3 _ _ hinv1 hns) ?_
    intro ie' hie'
    rw [tagTD_eTag]
    simp only [addTagE_eTag]
    by_cases hj : ie'.1 = ie.1
    · rw [if_pos hj, hj]
      constructor
      · intro hmem
        rcases mem_addClass.mp hmem with h | h
        · exact hie1 h
        · exact Tag.noConfusion h
      · intro hmem
        rcases mem_addClass.mp hmem with h | h
        · exact hie2 h
        · exact Tag.noConfusion h
    · rw [if_neg hj]
      exact hes ie' (List.mem_cons_of_mem ie hie')

theorem hop3Edges_nTag_cause :
    ∀ (es : List (ℕ × VEdge)) (s : HSt) (v : String),
      (hop3Edges es s).nTag v = s.nTag v ∨ ∃ ie ∈ es, v ∈ endpointsNE ie.2
  | [], _, _ => Or.inl rfl
  | ie :: rest, s, v => by
    rw [hop3Edges]
    rcases hop3Edges_nTag_cause rest _ v with h | ⟨ie', hie', hmem⟩
    · rcases tagTD_nTag_cause _ _ v with h2 | h2
      · left
        rw [h, h2]
        rfl
      · exact Or.inr ⟨ie, List.mem_cons_self ie rest, (List.mem_filter.mp h2).1⟩
    · exact Or.inr ⟨ie', List.mem_cons_of_mem ie hie', hmem⟩

theorem hop3Edges_eTag_cause :
    ∀ (es : List (ℕ × VEdge)) (s : HSt) (i : ℕ),
      (hop3Edges es s).eTag i = s.eTag i ∨ ∃ ie ∈ es, ie.1 = i
  | [], _, _ => Or.inl rfl
  | ie :: rest, s, i => by
    rw [hop3Edges]
    rcases hop3Edges_eTag_cause rest _ i with h | ⟨ie', hie', hi⟩
    · by_cases hii : i = ie.1
      · exact Or.inr ⟨ie, List.mem_cons_self ie rest, hii.symm⟩
      · left
        rw [h, tagTD_eTag]
        simp [hii]
    · exact Or.inr ⟨ie', List.mem_cons_of_mem ie hie', hi⟩

theorem edgesFor3_spec (g : VizGraph) (s : HSt) (nid : String) :
    ∀ ie ∈ edgesFor3 g s nid,
      ie ∈ enumEdges g ∧ incident nid ie.2 = true ∧
        Tag.d1 ∉ s.eTag ie.1 ∧ Tag.d2 ∉ s.eTag ie.1 := by
  intro ie hie
  obtain ⟨hmem, hcond⟩ := List.mem_filter.mp hie
  simp only [Bool.and_eq_true, decide_eq_true_eq] at hcond
  exact ⟨hmem, hcond.1.1.1, hcond.1.1.2, hcond.1.2⟩

theorem hop3Nodes_inv3 (g : VizGraph) :
    ∀ (nids : List String) (s : HSt), Inv3 s → Inv3 (hop3Nodes g nids s)
  | [], _, hs => hs
  | nid :: rest, s, hs => by
    rw [hop3Nodes]
    exact hop3Nodes_inv3 g rest _
      (hop3Edges_inv3 _ _ hs (fun ie hie => (edgesFor3_spec g s nid ie hie).2.2))

theorem hop3Nodes_nTag_cause (g : VizGraph) :
    ∀ (nids : List String) (s : HSt) (v : String),
      (hop3Nodes g nids s).nTag v = s.nTag v ∨
        ∃ nid ∈ nids, ∃ ie ∈ enumEdges g, incident nid ie.2 = true ∧ v ∈ endpointsNE ie.2
  | [], _, _ => Or.inl rfl
  | nid :: rest, s, v => by
    rw [hop3Nodes]
    rcases hop3Nodes_nTag_cause g rest _ v with h | ⟨nid', hnid', hc⟩
    · rcases hop3Edges_nTag_cause _ _ v with h2 | ⟨ie, hie, hmem⟩
      · left
        rw [h, h2]
      · obtain ⟨hmem', hinc, _⟩ := edgesFor3_spec g s nid ie hie
        exact Or.inr ⟨nid, List.mem_cons_self nid rest, ie, hmem', hinc, hmem⟩
    · exact Or.inr ⟨nid', List.mem_cons_of_mem nid hnid', hc⟩

theorem hop3Nodes_eTag_cause (g : VizGraph) :
    ∀ (nids : List String) (s : HSt) (i : ℕ),
      (hop3Nodes g nids s).eTag i = s.eTag i ∨
        ∃ nid ∈ nids, ∃ ie ∈ enumEdges g, incident nid ie.2 = true ∧ ie.1 = i
  | [], _, _ => Or.inl rfl
  | nid :: rest, s, i => by
    rw [hop3Nodes]
    rcases hop3Nodes_eTag_cause g rest _ i with h | ⟨nid', hnid', hc⟩
    · rcases hop3Edges_eTag_cause _ _ i with h2 | ⟨ie, hie, hi⟩
      · left
        rw [h, h2]
      · obtain ⟨hmem', hinc, _⟩ := edgesFor3_spec g s nid ie hie
        exact Or.inr ⟨nid, List.mem_cons_self nid rest, ie, hmem', hinc, hi⟩
    · exact Or.inr ⟨nid', List.mem_cons_of_mem nid hnid', hc⟩

/-! ### Hop-distance bounds and tag uniqueness -/

theorem ReachLe_mono {g : VizGraph} {sel : String} {k : ℕ} {v : String}
    (h : ReachLe g sel k v) : ReachLe g sel (k + 1) v := by
  induction h with
  | refl k => exact ReachLe.refl _
  | step _ adj ih => exact ReachLe.step ih adj

theorem mem_enumEdges_get {g : VizGraph} {ie : ℕ × VEdge} (h : ie ∈ enumEdges g) :
    g.edges.get? ie.1 = some ie.2 := by
  rcases ie with ⟨i, e⟩
  rw [List.get?_eq_getElem?]
  exact List.mk_mem_enum_iff_getElem?.mp h

theorem mem_enumEdges_mem {g : VizGraph} {ie : ℕ × VEdge} (h : ie ∈ enumEdges g) :
    ie.2 ∈ g.edges :=
  List.get?_mem (mem_enumEdges_get h)

theorem incident_cases {u : String} {e : VEdge} (h : incident u e = true) :
    e.src = u ∨ e.tgt = u := by
  simpa [incident, Bool.or_eq_true, decide_eq_true_eq] using h

theorem mem_endpointsNE {x : String} {e : VEdge} (h : x ∈ endpointsNE e) :
    x = e.src ∨ x = e.tgt := by
  unfold endpointsNE at h
  split at h <;> simp at h <;> tauto

theorem endpoint_reach {g : VizGraph} {sel : String} {k : ℕ} {u x : String}
    {ie : ℕ × VEdge} (hie : ie ∈ enumEdges g) (hinc : incident u ie.2 = true)
    (hx : x ∈ endpointsNE ie.2) (hu : ReachLe g sel k u) : ReachLe g sel (k + 1) x := by
  have he : ie.2 ∈ g.edges := mem_enumEdges_mem hie
  rcases mem_endpointsNE hx with hx' | hx' <;> rcases incident_cases hinc with hu' | hu'
  · rw [hx', hu']
    exact ReachLe_mono hu
  · exact ReachLe.step hu ⟨ie.2, he, Or.inr ⟨hu', hx'.symm⟩⟩
  · exact ReachLe.step hu ⟨ie.2, he, Or.inl ⟨hu', hx'.symm⟩⟩
  · rw [hx', hu']
    exact ReachLe_mono hu

theorem s0_inv1 (sel : String) :
    Inv1 sel (addProc sel (addTagN sel .selected initHSt)) := by
  refine ⟨?_, ?_, ?_, ?_⟩
  · simp [initHSt, addClass]
  · intro v hv
    left
    simp [initHSt, hv]
  · intro i
    left
    rfl
  · intro v hv
    simp only [addProc_nTag, addTagN_nTag, initHSt] at hv
    by_cases hvs : v = sel
    · subst hvs
      simp only [addProc_processed, addTagN_processed, initHSt]
      exact self_mem_insertIfAbsent
    · rw [if_neg hvs] at hv
      exact absurd rfl hv

theorem highlightRun_inv3 (g : VizGraph) (sel : String) :
    Inv3 (highlightRun g sel) :=
  hop3Nodes_inv3 g _ _ (Inv2_to_Inv3 _ (hop2Nodes_inv2 g _ _ _
    (Inv1_to_Inv2 sel _ (hop1_inv1 sel _ _ _ (s0_inv1 sel)))))

theorem highlightRun_fd_reach (g : VizGraph) (sel : String) :
    ∀ x ∈ (hop1 sel ((enumEdges g).filter (fun ie => incident sel ie.2))
        (addProc sel (addTagN sel .selected initHSt)) []).2,
      ReachLe g sel 1 x := by
  intro x hx
  rcases hop1_fd_cause sel _ _ _ x hx with h | ⟨_, ie, hie, hmem⟩
  · cases h
  · obtain ⟨hie', hinc⟩ := List.mem_filter.mp hie
    exact endpoint_reach hie' hinc hmem (ReachLe.refl 0)

theorem highlightRun_sd_reach (g : VizGraph) (sel : String) :
    ∀ x ∈ (hop2Nodes g
        (hop1 sel ((enumEdges g).filter (fun ie => incident sel ie.2))
          (addProc sel (addTagN sel .selected initHSt)) []).2
        (hop1 sel ((enumEdges g).filter (fun ie => incident sel ie.2))
          (addProc sel (addTagN sel .selected initHSt)) []).1 []).2,
      ReachLe g sel 2 x := by
  intro x hx
  rcases hop2Nodes_sd_cause g _ _ _ x hx with h | ⟨nid, hnid, ie, hie, hinc, hmem⟩
  · cases h
  · exact endpoint_reach hie hinc hmem (highlightRun_fd_reach g sel nid hnid)

theorem highlightRun_nTag_reach (g : VizGraph) (sel v : String)
    (h : (highlightRun g sel).nTag v ≠ []) : ReachLe g sel 3 v := by
  rw [highlightRun] at h
  rcases hop3Nodes_nTag_cause g _ _ v with h3 | ⟨nid, hnid, ie, hie, hinc, hmem⟩
  · rw [h3] at h
    rcases hop2Nodes_nTag_cause g _ _ _ v with h2 | ⟨nid, hnid, ie, hie, hinc, hmem⟩
    · rw [h2] at h
      rcases hop1_nTag_cause sel _ _ _ v with h1 | ⟨_, ie, hie, hmem⟩
      · rw [h1] at h
        simp only [addProc_nTag, addTagN_nTag, initHSt] at h
        by_cases hvs : v = sel
        · subst hvs
          exact ReachLe.refl 3
        · rw [if_neg hvs] at h
          exact absurd rfl h
      · obtain ⟨hie', hinc⟩ := List.mem_filter.mp hie
        exact ReachLe_mono (ReachLe_mono (endpoint_reach hie' hinc hmem (ReachLe.refl 0)))
    · exact ReachLe_mono
        (endpoint_reach hie hinc hmem (highlightRun_fd_reach g sel nid hnid))
  · exact endpoint_reach hie hinc hmem (highlightRun_sd_reach g sel nid hnid)

theorem highlightRun_eTag_reach (g : VizGraph) (sel : String) (i : ℕ)
    (h : (highlightRun g sel).eTag i ≠ []) :
    ∃ e, g.edges.get? i = some e ∧
      (ReachLe g sel 2 e.src ∨ ReachLe g sel 2 e.tgt) := by
  rw [highlightRun] at h
  rcases hop3Nodes_eTag_cause g _ _ i with h3 | ⟨nid, hnid, ie, hie, hinc, hi⟩
  · rw [h3] at h
    rcases hop2Nodes_eTag_cause g _ _ _ i with h2 | ⟨nid, hnid, ie, hie, hinc, hi⟩
    · rw [h2] at h
      rcases hop1_eTag_cause sel _ _ _ i with h1 | ⟨ie, hie, hi⟩
      · rw [h1] at h
        exact absurd rfl h
      · obtain ⟨hie', hinc⟩ := List.mem_filter.mp hie
        refine ⟨ie.2, hi ▸ mem_enumEdges_get hie', ?_⟩
        rcases incident_cases hinc with hs | hs
        · exact Or.inl (hs ▸ ReachLe.refl 2)
        · exact Or.inr (hs ▸ ReachLe.refl 2)
    · refine ⟨ie.2, hi ▸ mem_enumEdges_get hie, ?_⟩
      have hnid' : ReachLe g sel 1 nid := highlightRun_fd_reach g sel nid hnid
      rcases incident_cases hinc with hs | hs
      · exact Or.inl (hs ▸ ReachLe_mono hnid')
      · exact Or.inr (hs ▸ ReachLe_mono hnid')
  · refine ⟨ie.2, hi ▸ mem_enumEdges_get hie, ?_⟩
    have hnid' : ReachLe g sel 2 nid := highlightRun_sd_reach g sel nid hnid
    rcases incident_cases hinc with hs | hs
    · exact Or.inl (hs ▸ hnid')
    · exact Or.inr (hs ▸ hnid')

/-- Claim C6: on the path graph `a–b–c–d–e` selecting `a` tags `b`, `c`,
`d` with degrees 1, 2, 3 and leaves `e` untouched (same for the edges); in
every graph no node beyond hop distance 3 and no edge beyond hop distance
3 (i.e. with no endpoint within distance 2) is ever tagged; and every node
and edge ends the run with at most one highlight class (first assignment
wins — no element is retagged at a different hop). -/
theorem C6_highlight_propagation :
    ((highlightRun pathSample "a").nTag "a" = [Tag.selected] ∧
      (highlightRun pathSample "a").nTag "b" = [Tag.d1] ∧
      (highlightRun pathSample "a").nTag "c" = [Tag.d2] ∧
      (highlightRun pathSample "a").nTag "d" = [Tag.d3] ∧
      (highlightRun pathSample "a").nTag "e" = [] ∧
      (highlightRun pathSample "a").eTag 0 = [Tag.d1] ∧
      (highlightRun pathSample "a").eTag 1 = [Tag.d2] ∧
      (highlightRun pathSample "a").eTag 2 = [Tag.d3] ∧
      (highlightRun pathSample "a").eTag 3 = []) ∧
    (∀ (g : VizGraph) (sel v : String),
      (highlightRun g sel).nTag v ≠ [] → ReachLe g sel 3 v) ∧
    (∀ (g : VizGraph) (sel : String) (i : ℕ),
      (highlightRun g sel).eTag i ≠ [] →
        ∃ e, g.edges.get? i = some e ∧
          (ReachLe g sel 2 e.src ∨ ReachLe g sel 2 e.tgt)) ∧
    (∀ (g : VizGraph) (sel v : String), ((highlightRun g sel).nTag v).length ≤ 1) ∧
    (∀ (g : VizGraph) (sel : String) (i : ℕ),
      ((highlightRun g sel).eTag i).length ≤ 1) := by
  refine ⟨by decide, highlightRun_nTag_reach, highlightRun_eTag_reach, ?_, ?_⟩
  · intro g sel v
    rcases (highlightRun_inv3 g sel).1 v with h | h | h | h | h <;> rw [h] <;> simp
  · intro g sel i
    rcases (highlightRun_inv3 g sel).2.1 i with h | h | h | h <;> rw [h] <;> simp

/-- Witness for C6 at the path graph. -/
theorem C6_witness : ReachLe pathSample "a" 3 "d" :=
  C6_highlight_propagation.2.1 pathSample "a" "d" (by decide)

/-- Claim C1 (code evaluation at the failing input): after selecting `a`
on the path graph and then clearing the selection (background tap), node
`b` and the first edge still carry `connected-1` — the transition to Idle
leaves the previous classes entirely in place, because the selection
effect's body only runs when a node is selected. -/
theorem C1_stale_highlight_eval :
    (selectionEffect pathSample
        (selectionEffect pathSample initHSt (some "a")) none).nTag "b" = [Tag.d1] ∧
      (selectionEffect pathSample
        (selectionEffect pathSample initHSt (some "a")) none).eTag 0 = [Tag.d1] ∧
      selectionEffect pathSample
          (selectionEffect pathSample initHSt (some "a")) none =
        selectionEffect pathSample initHSt (some "a") :=
  ⟨by decide, by decide, rfl⟩

/-- Witness for C9 at a concrete 100-node input with distinct ids. -/
theorem C9_witness :
    ((determineNodeTiers tierSample).map Prod.fst).Nodup ∧
      (determineNodeTiers tierSample).countP (fun p => decide (p.2 = 0)) = 10 ∧
      (determineNodeTiers tierSample).countP (fun p => decide (p.2 = 1)) = 20 ∧
      (determineNodeTiers tierSample).countP (fun p => decide (p.2 = 2)) = 30 ∧
      (determineNodeTiers tierSample).countP (fun p => decide (p.2 = 3)) = 40 :=
  ⟨(C9_tier_assignment tierSample).2.2.1 (by decide),
   (C9_tier_assignment tierSample).2.2.2.2 (by decide)⟩

end MindMap
